import Mathlib

/-!
Verification development for the core of the openapi-sync-mcp repository.

The development shallowly embeds the three core subsystems:
* the dialect-normalizing parser (src/services/parser.rs): JSON-like values,
  the single-pass reference-and-hash traversal (`collect_refs_and_hash`),
  the whole-document content hash (`compute_hash`, i.e. SHA-256 over
  `serde_json::to_string`), dialect detection and the Swagger-2 operation
  normalization helpers;
* the cache manager (src/services/cache.rs): the validity cascade of
  `parse_with_cache`, `is_cache_expired`, `check_remote_cache`,
  `check_local_cache`, `create_cache` and the local branch of
  `fetch_and_parse`;
* the dependency graph (spec section 4.3; its source file is not part of the
  provided sources, so it is modelled from the spec).

Hashing is modelled by the exact byte sequence fed to the SHA-256 hasher
(`Sha256::update` calls, in order).  Equal streams produce equal digests; the
spec's inequality statements are read as inequality of the input streams
(the standard collision-resistance idealization).  Rust `char`/UTF-8 byte
sequences are modelled as Lean `List Char`; UTF-8 encoding is order- and
equality-preserving, so nothing is lost for the claims at hand.
-/

/-! ### Characters and decimal representations -/

/-- ASCII decimal digit test, `48 ≤ c ≤ 57`. -/
def isDigitCh (c : Char) : Bool := 48 ≤ c.toNat && c.toNat ≤ 57

/-- The decimal digit character for a value below ten. -/
def digitCh : Nat → Char
  | 0 => '0' | 1 => '1' | 2 => '2' | 3 => '3' | 4 => '4'
  | 5 => '5' | 6 => '6' | 7 => '7' | 8 => '8' | _ => '9'

/-- Numeric value of a decimal digit character. -/
def valCh (c : Char) : Nat := c.toNat - 48

theorem valCh_digitCh {d : Nat} (h : d < 10) : valCh (digitCh d) = d := by
  interval_cases d <;> decide

theorem isDigitCh_digitCh {d : Nat} (h : d < 10) : isDigitCh (digitCh d) = true := by
  interval_cases d <;> decide

/-- Decimal character representation of a natural number, most significant
digit first, mirroring Rust's `to_string` on unsigned integers. -/
def natChars (n : Nat) : List Char :=
  if n = 0 then ['0'] else ((Nat.digits 10 n).map digitCh).reverse

/-- Decimal character representation of an integer, mirroring Rust's
`to_string` on `i64` (a leading minus sign for negatives). -/
def intChars (i : Int) : List Char :=
  if i < 0 then '-' :: natChars i.natAbs else natChars i.toNat

theorem natChars_ne_nil (n : Nat) : natChars n ≠ [] := by
  unfold natChars
  split
  · simp
  · next h =>
    simp only [ne_eq, List.reverse_eq_nil_iff, List.map_eq_nil_iff]
    exact Nat.digits_ne_nil_iff_ne_zero.mpr h

theorem mem_natChars_digit {n : Nat} {c : Char} (h : c ∈ natChars n) :
    isDigitCh c = true := by
  unfold natChars at h
  split at h
  · simp only [List.mem_singleton] at h
    subst h; decide
  · simp only [List.mem_reverse, List.mem_map] at h
    obtain ⟨d, hd, rfl⟩ := h
    exact isDigitCh_digitCh (Nat.digits_lt_base (by norm_num) hd)

theorem digitsMap_ne_zeroChar {n : Nat} (hn : n ≠ 0)
    (h2 : (Nat.digits 10 n).map digitCh = ['0']) : False := by
  obtain ⟨d, hd⟩ : ∃ d, Nat.digits 10 n = [d] := by
    rcases hds : Nat.digits 10 n with _ | ⟨d, ds⟩
    · rw [hds] at h2; simp at h2
    · rw [hds] at h2
      simp only [List.map_cons, List.cons.injEq] at h2
      exact ⟨d, by simp [List.map_eq_nil_iff.mp h2.2]⟩
  have hd0 : d = 0 := by
    rw [hd] at h2
    simp only [List.map_cons, List.map_nil, List.cons.injEq] at h2
    have hlt : d < 10 := Nat.digits_lt_base (by norm_num) (by rw [hd]; simp)
    have := valCh_digitCh hlt
    rw [h2.1] at this
    simpa [valCh] using this.symm
  have hofd := Nat.ofDigits_digits 10 n
  rw [hd, hd0] at hofd
  exact hn (by simpa [Nat.ofDigits] using hofd.symm)

theorem natChars_inj {m n : Nat} (h : natChars m = natChars n) : m = n := by
  by_cases hm : m = 0 <;> by_cases hn : n = 0
  · omega
  · exfalso
    unfold natChars at h
    rw [if_pos hm, if_neg hn] at h
    exact digitsMap_ne_zeroChar hn (by simpa using (congrArg List.reverse h).symm)
  · exfalso
    unfold natChars at h
    rw [if_neg hm, if_pos hn] at h
    exact digitsMap_ne_zeroChar hm (by simpa using congrArg List.reverse h)
  · unfold natChars at h
    rw [if_neg hm, if_neg hn] at h
    have h2 : (Nat.digits 10 m).map digitCh = (Nat.digits 10 n).map digitCh := by
      have := congrArg List.reverse h
      simpa using this
    have hback : ∀ k : Nat, ((Nat.digits 10 k).map digitCh).map valCh = Nat.digits 10 k := by
      intro k
      rw [List.map_map]
      calc (Nat.digits 10 k).map (valCh ∘ digitCh)
          = (Nat.digits 10 k).map id := List.map_congr_left fun d hd =>
            valCh_digitCh (Nat.digits_lt_base (by norm_num) hd)
        _ = Nat.digits 10 k := List.map_id _
    have h4 : Nat.digits 10 m = Nat.digits 10 n := by
      rw [← hback m, ← hback n, h2]
    calc m = Nat.ofDigits 10 (Nat.digits 10 m) := (Nat.ofDigits_digits 10 m).symm
      _ = Nat.ofDigits 10 (Nat.digits 10 n) := by rw [h4]
      _ = n := Nat.ofDigits_digits 10 n

/-- A character list is digit-guarded when it does not start with a decimal
digit; appended after a serialized number it cannot extend the number token. -/
def gd : List Char → Prop
  | [] => True
  | c :: _ => isDigitCh c = false

theorem gd_nil : gd [] := trivial

theorem gd_cons {c : Char} {r : List Char} (h : isDigitCh c = false) : gd (c :: r) := h

theorem digit_append_pd {a b r1 r2 : List Char}
    (ha : ∀ c ∈ a, isDigitCh c = true) (hb : ∀ c ∈ b, isDigitCh c = true)
    (h : a ++ r1 = b ++ r2) (g1 : gd r1) (g2 : gd r2) : a = b ∧ r1 = r2 := by
  induction a generalizing b with
  | nil =>
    cases b with
    | nil => exact ⟨rfl, h⟩
    | cons d bs =>
      exfalso
      simp only [List.nil_append, List.cons_append] at h
      rw [h] at g1
      exact absurd (hb d (by simp)) (by simpa [gd] using g1)
  | cons c as ih =>
    cases b with
    | nil =>
      exfalso
      simp only [List.nil_append, List.cons_append] at h
      rw [← h] at g2
      exact absurd (ha c (by simp)) (by simpa [gd] using g2)
    | cons d bs =>
      simp only [List.cons_append, List.cons.injEq] at h
      obtain ⟨rfl, h2⟩ := h
      have := ih (fun x hx => ha x (by simp [hx])) (fun x hx => hb x (by simp [hx])) h2
      exact ⟨by rw [this.1], this.2⟩

theorem natCharsPD {m n : Nat} {r1 r2 : List Char}
    (h : natChars m ++ r1 = natChars n ++ r2) (g1 : gd r1) (g2 : gd r2) :
    m = n ∧ r1 = r2 := by
  have := digit_append_pd (fun c hc => mem_natChars_digit hc)
    (fun c hc => mem_natChars_digit hc) h g1 g2
  exact ⟨natChars_inj this.1, this.2⟩

theorem natChars_head (n : Nat) :
    ∃ c t, natChars n = c :: t ∧ isDigitCh c = true := by
  rcases hc : natChars n with _ | ⟨c, t⟩
  · exact absurd hc (natChars_ne_nil n)
  · exact ⟨c, t, rfl, mem_natChars_digit (by rw [hc]; simp)⟩

theorem intChars_head (i : Int) :
    ∃ c t, intChars i = c :: t ∧ (c = '-' ∨ isDigitCh c = true) := by
  unfold intChars
  split
  · exact ⟨'-', natChars i.natAbs, rfl, Or.inl rfl⟩
  · obtain ⟨c, t, hc, hd⟩ := natChars_head i.toNat
    exact ⟨c, t, hc, Or.inr hd⟩

theorem intCharsPD {i j : Int} {r1 r2 : List Char}
    (h : intChars i ++ r1 = intChars j ++ r2) (g1 : gd r1) (g2 : gd r2) :
    i = j ∧ r1 = r2 := by
  unfold intChars at h
  split at h <;> split at h
  · simp only [List.cons_append, List.cons.injEq] at h
    obtain ⟨m_eq, r_eq⟩ := natCharsPD h.2 g1 g2
    refine ⟨?_, r_eq⟩
    omega
  · exfalso
    obtain ⟨c, t, hc, hd⟩ := natChars_head j.toNat
    rw [hc] at h
    simp only [List.cons_append, List.cons.injEq] at h
    rw [← h.1] at hd
    exact absurd hd (by decide)
  · exfalso
    obtain ⟨c, t, hc, hd⟩ := natChars_head i.toNat
    rw [hc] at h
    simp only [List.cons_append, List.cons.injEq] at h
    rw [h.1] at hd
    exact absurd hd (by decide)
  · obtain ⟨m_eq, r_eq⟩ := natCharsPD h g1 g2
    refine ⟨?_, r_eq⟩
    omega

/-! ### Generic character-list helpers -/

/-- Whether the second list starts with the first (as in Rust `str::starts_with`). -/
def startsWithCh : List Char → List Char → Bool
  | [], _ => true
  | _ :: _, [] => false
  | p :: ps, c :: cs => p = c && startsWithCh ps cs

/-- Whether two consecutive dots occur anywhere (Rust `str::contains("..")`). -/
def hasDotDotCh : List Char → Bool
  | c1 :: c2 :: rest => (c1 = '.' && c2 = '.') || hasDotDotCh (c2 :: rest)
  | _ => false

/-- A string contains a parent-directory marker, modelling
`path.to_string_lossy().contains("..")`. -/
def hasDotDot (s : String) : Bool := hasDotDotCh s.data

/-- A string starts with the given pattern, modelling `str::starts_with`. -/
def strStarts (s pat : String) : Bool := startsWithCh pat.data s.data

/-- Lexicographic order on character lists; agrees with the byte-wise `Ord` on
Rust `String` because UTF-8 encoding preserves code-point order. -/
def leCh : List Char → List Char → Bool
  | [], _ => true
  | _ :: _, [] => false
  | a :: as, b :: bs => if a < b then true else if b < a then false else leCh as bs

theorem leCh_refl (a : List Char) : leCh a a = true := by
  induction a with
  | nil => rfl
  | cons c cs ih => simp [leCh, ih]

theorem leCh_total (a b : List Char) : leCh a b = true ∨ leCh b a = true := by
  induction a generalizing b with
  | nil => exact Or.inl rfl
  | cons c cs ih =>
    cases b with
    | nil => exact Or.inr rfl
    | cons d ds =>
      rcases lt_trichotomy c d with h | h | h
      · exact Or.inl (by simp [leCh, h])
      · subst h
        rcases ih ds with h | h
        · exact Or.inl (by simp [leCh, h])
        · exact Or.inr (by simp [leCh, h])
      · exact Or.inr (by simp [leCh, h])

theorem leCh_antisymm {a b : List Char} (h1 : leCh a b = true) (h2 : leCh b a = true) :
    a = b := by
  induction a generalizing b with
  | nil =>
    cases b with
    | nil => rfl
    | cons d ds => exact absurd h2 (by simp [leCh])
  | cons c cs ih =>
    cases b with
    | nil => exact absurd h1 (by simp [leCh])
    | cons d ds =>
      rcases lt_trichotomy c d with h | h | h
      · rw [leCh] at h2
        rw [if_neg (lt_asymm h), if_pos h] at h2
        exact absurd h2 (by simp)
      · subst h
        rw [leCh] at h1
        rw [if_neg (lt_irrefl c), if_neg (lt_irrefl c)] at h1
        rw [leCh] at h2
        rw [if_neg (lt_irrefl c), if_neg (lt_irrefl c)] at h2
        rw [ih h1 h2]
      · rw [leCh] at h1
        rw [if_neg (lt_asymm h), if_pos h] at h1
        exact absurd h1 (by simp)

theorem leCh_trans {a b c : List Char} (h1 : leCh a b = true) (h2 : leCh b c = true) :
    leCh a c = true := by
  induction a generalizing b c with
  | nil => rfl
  | cons x xs ih =>
    cases b with
    | nil => exact absurd h1 (by simp [leCh])
    | cons y ys =>
      cases c with
      | nil => exact absurd h2 (by simp [leCh])
      | cons z zs =>
        rw [leCh] at h1 h2 ⊢
        rcases lt_trichotomy x y with hxy | hxy | hxy
        · rcases lt_trichotomy y z with hyz | hyz | hyz
          · rw [if_pos (lt_trans hxy hyz)]
          · subst hyz; rw [if_pos hxy]
          · rw [if_neg (lt_asymm hyz), if_pos hyz] at h2
            exact absurd h2 (by simp)
        · subst hxy
          rw [if_neg (lt_irrefl x), if_neg (lt_irrefl x)] at h1
          rcases lt_trichotomy x z with hyz | hyz | hyz
          · rw [if_pos hyz]
          · subst hyz
            rw [if_neg (lt_irrefl x), if_neg (lt_irrefl x)] at h2 ⊢
            exact ih h1 h2
          · rw [if_neg (lt_asymm hyz), if_pos hyz] at h2
            exact absurd h2 (by simp)
        · rw [if_neg (lt_asymm hxy), if_pos hxy] at h1
          exact absurd h1 (by simp)

/-! ### JSON-like values -/

/-- Shallow embedding of `serde_json::Value`.  Object entries are kept as an
association list; `serde_json`'s default map is a `BTreeMap`, so a parsed
document always stores entries sorted by key and without duplicate keys
(`canon` below produces exactly that shape from an arbitrary entry order).
Numbers are modelled as integers; `serde_json::Number` also covers floats,
which no claim exercises. -/
inductive Json where
  | null : Json
  | bool : Bool → Json
  | num : Int → Json
  | str : String → Json
  | arr : List Json → Json
  | obj : List (String × Json) → Json

theorem sizeOf_mem_arr {x : Json} {xs : List Json} (h : x ∈ xs) :
    sizeOf x < sizeOf (Json.arr xs) := by
  have := List.sizeOf_lt_of_mem h
  simp only [Json.arr.sizeOf_spec]
  omega

theorem sizeOf_mem_obj {p : String × Json} {kvs : List (String × Json)} (h : p ∈ kvs) :
    sizeOf p.2 < sizeOf (Json.obj kvs) := by
  have h1 := List.sizeOf_lt_of_mem h
  obtain ⟨k, v⟩ := p
  simp only [Json.obj.sizeOf_spec, Prod.mk.sizeOf_spec] at *
  omega

/-- Structural induction over `Json` exposing list membership in the array and
object cases. -/
theorem Json.indMem {P : Json → Prop} (hnull : P .null) (hbool : ∀ b, P (.bool b))
    (hnum : ∀ n, P (.num n)) (hstr : ∀ s, P (.str s))
    (harr : ∀ xs, (∀ x ∈ xs, P x) → P (.arr xs))
    (hobj : ∀ kvs, (∀ p ∈ kvs, P p.2) → P (.obj kvs)) : ∀ v, P v
  | .null => hnull
  | .bool b => hbool b
  | .num n => hnum n
  | .str s => hstr s
  | .arr xs => harr xs (fun x hx =>
      Json.indMem hnull hbool hnum hstr harr hobj x)
  | .obj kvs => hobj kvs (fun p hp =>
      Json.indMem hnull hbool hnum hstr harr hobj p.2)
termination_by v => sizeOf v
decreasing_by
  · exact sizeOf_mem_arr hx
  · exact sizeOf_mem_obj hp

/-! ### Key sorting: BTreeMap iteration order and the parser's `keys.sort()` -/

/-- Insert an entry into a key-sorted association list. -/
def insKey (p : String × Json) : List (String × Json) → List (String × Json)
  | [] => [p]
  | q :: rest =>
    if leCh p.1.data q.1.data = true then p :: q :: rest else q :: insKey p rest

/-- Sort an association list by key (insertion sort); with duplicate-free keys
this is the unique key-ascending arrangement, i.e. the `BTreeMap` order. -/
def sortKeys : List (String × Json) → List (String × Json)
  | [] => []
  | p :: rest => insKey p (sortKeys rest)

/-- Key-wise comparison of two object entries. -/
def keyLeP (p q : String × Json) : Prop := leCh p.1.data q.1.data = true

theorem insKey_perm (p : String × Json) (l : List (String × Json)) :
    (insKey p l).Perm (p :: l) := by
  induction l with
  | nil => exact List.Perm.refl _
  | cons q rest ih =>
    rw [insKey]
    split
    · exact List.Perm.refl _
    · exact (ih.cons q).trans (List.Perm.swap p q rest)

theorem sortKeys_perm (l : List (String × Json)) : (sortKeys l).Perm l := by
  induction l with
  | nil => exact List.Perm.refl _
  | cons p rest ih => exact (insKey_perm p (sortKeys rest)).trans (ih.cons p)

theorem mem_insKey {x p : String × Json} {l : List (String × Json)}
    (h : x ∈ insKey p l) : x = p ∨ x ∈ l := by
  have := (insKey_perm p l).mem_iff.mp h
  simpa using this

theorem insKey_sorted {p : String × Json} {l : List (String × Json)}
    (h : l.Pairwise keyLeP) : (insKey p l).Pairwise keyLeP := by
  induction l with
  | nil => simp [insKey, List.pairwise_cons]
  | cons q rest ih =>
    rw [insKey]
    obtain ⟨hq, hrest⟩ := List.pairwise_cons.mp h
    split
    · next hc =>
      refine List.pairwise_cons.mpr ⟨?_, h⟩
      intro x hx
      rcases List.mem_cons.mp hx with rfl | hx
      · exact hc
      · exact leCh_trans hc (hq x hx)
    · next hc =>
      refine List.pairwise_cons.mpr ⟨?_, ih hrest⟩
      intro x hx
      rcases mem_insKey hx with rfl | hx
      · rcases leCh_total q.1.data x.1.data with ht | ht
        · exact ht
        · exact absurd ht hc
      · exact hq x hx

theorem sortKeys_sorted (l : List (String × Json)) : (sortKeys l).Pairwise keyLeP := by
  induction l with
  | nil => exact List.Pairwise.nil
  | cons p rest ih => exact insKey_sorted ih

theorem sorted_nodup_perm_eq :
    ∀ {l1 l2 : List (String × Json)}, l1.Perm l2 → l1.Pairwise keyLeP →
      l2.Pairwise keyLeP → (l1.map Prod.fst).Nodup → l1 = l2 := by
  intro l1
  induction l1 with
  | nil =>
    intro l2 hp _ _ _
    exact (hp.symm.eq_nil).symm
  | cons p t1 ih =>
    intro l2 hp h1 h2 hnd
    cases l2 with
    | nil => simpa using hp.eq_nil
    | cons q t2 =>
      have hpq : p = q := by
        by_contra hne
        have hp_mem : p ∈ q :: t2 := hp.mem_iff.mp (by simp)
        have hq_mem : q ∈ p :: t1 := hp.symm.mem_iff.mp (by simp)
        have hpt2 : p ∈ t2 := by
          rcases List.mem_cons.mp hp_mem with h | h
          · exact absurd h hne
          · exact h
        have hqt1 : q ∈ t1 := by
          rcases List.mem_cons.mp hq_mem with h | h
          · exact absurd h.symm hne
          · exact h
        have h1q : keyLeP p q := (List.pairwise_cons.mp h1).1 q hqt1
        have h2p : keyLeP q p := (List.pairwise_cons.mp h2).1 p hpt2
        have hk : p.1 = q.1 := String.ext (leCh_antisymm h1q h2p)
        have hmem : p.1 ∈ t1.map Prod.fst := by
          rw [hk]
          exact List.mem_map_of_mem Prod.fst hqt1
        have hnd2 : (p.1 :: t1.map Prod.fst).Nodup := by
          simpa only [List.map_cons] using hnd
        exact (List.nodup_cons.mp hnd2).1 hmem
      subst hpq
      have ht : t1.Perm t2 := hp.cons_inv
      have hnd' : (t1.map Prod.fst).Nodup := by
        have hnd2 : (p.1 :: t1.map Prod.fst).Nodup := by
          simpa only [List.map_cons] using hnd
        exact (List.nodup_cons.mp hnd2).2
      rw [ih ht (List.pairwise_cons.mp h1).2 (List.pairwise_cons.mp h2).2 hnd']

theorem sortKeys_eq_of_perm {l1 l2 : List (String × Json)} (hp : l1.Perm l2)
    (hnd : (l1.map Prod.fst).Nodup) : sortKeys l1 = sortKeys l2 := by
  apply sorted_nodup_perm_eq
  · exact (sortKeys_perm l1).trans (hp.trans (sortKeys_perm l2).symm)
  · exact sortKeys_sorted l1
  · exact sortKeys_sorted l2
  · have hperm : ((sortKeys l1).map Prod.fst).Perm (l1.map Prod.fst) :=
      (sortKeys_perm l1).map Prod.fst
    exact hperm.nodup_iff.mpr hnd

theorem insKey_forall2 {R : (String × Json) → (String × Json) → Prop}
    (hR : ∀ a b, R a b → a.1 = b.1) {p q : String × Json}
    {l m : List (String × Json)} (hpq : R p q) (h : List.Forall₂ R l m) :
    List.Forall₂ R (insKey p l) (insKey q m) := by
  induction h with
  | nil => exact List.Forall₂.cons hpq List.Forall₂.nil
  | @cons a b l2 m2 hab hrest ih =>
    rw [insKey, insKey]
    have h1 : p.1 = q.1 := hR _ _ hpq
    have h2 : a.1 = b.1 := hR _ _ hab
    by_cases hc : leCh p.1.data a.1.data = true
    · rw [if_pos hc, if_pos (by rw [← h1, ← h2]; exact hc)]
      exact List.Forall₂.cons hpq (List.Forall₂.cons hab hrest)
    · rw [if_neg hc, if_neg (by rw [← h1, ← h2]; exact hc)]
      exact List.Forall₂.cons hab ih

theorem sortKeys_forall2 {R : (String × Json) → (String × Json) → Prop}
    (hR : ∀ a b, R a b → a.1 = b.1) {l m : List (String × Json)}
    (h : List.Forall₂ R l m) : List.Forall₂ R (sortKeys l) (sortKeys m) := by
  induction h with
  | nil => exact List.Forall₂.nil
  | cons hab hrest ih => exact insKey_forall2 hR hab ih

/-! ### JSON string escaping (serde_json serializer) -/

theorem charToNat_inj {a b : Char} (h : a.toNat = b.toNat) : a = b := by
  rw [← Char.ofNat_toNat a, ← Char.ofNat_toNat b, h]

/-- Opening brace character, written via its code point. -/
def braceL : Char := Char.ofNat 123

/-- Closing brace character, written via its code point. -/
def braceR : Char := Char.ofNat 125

/-- Lower-case hexadecimal digit characters. -/
def hexDig : Nat → Char
  | 0 => '0' | 1 => '1' | 2 => '2' | 3 => '3' | 4 => '4' | 5 => '5' | 6 => '6'
  | 7 => '7' | 8 => '8' | 9 => '9' | 10 => 'a' | 11 => 'b' | 12 => 'c'
  | 13 => 'd' | 14 => 'e' | _ => 'f'

/-- Numeric value of a hexadecimal digit character. -/
def hexVal (c : Char) : Nat :=
  if c.toNat ≥ 97 then c.toNat - 87 else c.toNat - 48

theorem hexVal_hexDig {a : Nat} (h : a < 16) : hexVal (hexDig a) = a := by
  interval_cases a <;> decide

theorem hexDig_inj {a b : Nat} (ha : a < 16) (hb : b < 16) (h : hexDig a = hexDig b) :
    a = b := by
  have := hexVal_hexDig ha
  rw [h, hexVal_hexDig hb] at this
  omega

/-- Escape one character as the serde_json serializer does: quote and backslash
get two-character escapes, the named control characters get their short forms,
any other control character below 0x20 becomes a `\u00XX` escape, and
everything else is emitted verbatim. -/
def escChar (c : Char) : List Char :=
  if c = '\"' then ['\\', '\"']
  else if c = '\\' then ['\\', '\\']
  else if c = Char.ofNat 8 then ['\\', 'b']
  else if c = '\t' then ['\\', 't']
  else if c = '\n' then ['\\', 'n']
  else if c = Char.ofNat 12 then ['\\', 'f']
  else if c = '\r' then ['\\', 'r']
  else if c.toNat < 32 then
    ['\\', 'u', '0', '0', hexDig (c.toNat / 16), hexDig (c.toNat % 16)]
  else [c]

theorem escChar_head (c : Char) : ∃ hd tl, escChar c = hd :: tl ∧ hd ≠ '\"' := by
  unfold escChar
  split_ifs with h1 h2 h3 h4 h5 h6 h7 h8
  · exact ⟨'\\', _, rfl, by decide⟩
  · exact ⟨'\\', _, rfl, by decide⟩
  · exact ⟨'\\', _, rfl, by decide⟩
  · exact ⟨'\\', _, rfl, by decide⟩
  · exact ⟨'\\', _, rfl, by decide⟩
  · exact ⟨'\\', _, rfl, by decide⟩
  · exact ⟨'\\', _, rfl, by decide⟩
  · exact ⟨'\\', _, rfl, by decide⟩
  · exact ⟨c, [], rfl, h1⟩

/-- Decoder for the escape-sequence tail after a backslash; inverse witness
for `escChar`, used only to prove its prefix-determinism. -/
def unescSlash : List Char → Option (Char × List Char)
  | [] => none
  | e :: r =>
    if e = '\"' then some ('\"', r)
    else if e = '\\' then some ('\\', r)
    else if e = 'b' then some (Char.ofNat 8, r)
    else if e = 't' then some ('\t', r)
    else if e = 'n' then some ('\n', r)
    else if e = 'f' then some (Char.ofNat 12, r)
    else if e = 'r' then some ('\r', r)
    else if e = 'u' then
      match r with
      | _ :: _ :: h1 :: h2 :: r2 => some (Char.ofNat (16 * hexVal h1 + hexVal h2), r2)
      | _ => none
    else none

/-- Decode one escaped character from a stream. -/
def unesc : List Char → Option (Char × List Char)
  | [] => none
  | c :: rest => if c = '\\' then unescSlash rest else some (c, rest)

theorem unesc_escChar (c : Char) (x : List Char) :
    unesc (escChar c ++ x) = some (c, x) := by
  unfold escChar
  split_ifs with h1 h2 h3 h4 h5 h6 h7 h8
  · subst h1; simp [unesc, unescSlash]
  · subst h2; simp [unesc, unescSlash]
  · subst h3; simp [unesc, unescSlash]
  · subst h4; simp [unesc, unescSlash]
  · subst h5; simp [unesc, unescSlash]
  · subst h6; simp [unesc, unescSlash]
  · subst h7; simp [unesc, unescSlash]
  · have e1 : hexVal (hexDig (c.toNat / 16)) = c.toNat / 16 := hexVal_hexDig (by omega)
    have e2 : hexVal (hexDig (c.toNat % 16)) = c.toNat % 16 := hexVal_hexDig (by omega)
    simp [unesc, unescSlash, e1, e2, Nat.div_add_mod, Char.ofNat_toNat]
  · simp [unesc, h2]

theorem escCharPD {c d : Char} {x y : List Char} (h : escChar c ++ x = escChar d ++ y) :
    c = d ∧ x = y := by
  have h1 := unesc_escChar c x
  rw [h, unesc_escChar d y] at h1
  have h2 := Option.some.inj h1
  exact ⟨(congrArg Prod.fst h2).symm, (congrArg Prod.snd h2).symm⟩

/-- Escape a whole string as the serde_json serializer does. -/
def escStr : List Char → List Char
  | [] => []
  | c :: rest => escChar c ++ escStr rest

theorem escStrPD : ∀ {s t x y : List Char},
    escStr s ++ '\"' :: x = escStr t ++ '\"' :: y → s = t ∧ x = y := by
  intro s
  induction s with
  | nil =>
    intro t x y h
    cases t with
    | nil => simp_all [escStr]
    | cons d t2 =>
      exfalso
      obtain ⟨hd, tl, he, hne⟩ := escChar_head d
      rw [escStr, escStr, he] at h
      simp only [List.nil_append, List.cons_append, List.append_assoc, List.cons.injEq] at h
      exact hne h.1.symm
  | cons c s2 ih =>
    intro t x y h
    cases t with
    | nil =>
      exfalso
      obtain ⟨hd, tl, he, hne⟩ := escChar_head c
      rw [escStr, escStr, he] at h
      simp only [List.nil_append, List.cons_append, List.append_assoc, List.cons.injEq] at h
      exact hne h.1
    | cons d t2 =>
      rw [escStr, escStr, List.append_assoc, List.append_assoc] at h
      obtain ⟨rfl, h2⟩ := escCharPD h
      obtain ⟨rfl, h3⟩ := ih h2
      exact ⟨rfl, h3⟩

/-- The rendered text of the JSON null atom. -/
def nullChars : List Char := "null".data

/-- The rendered text of the JSON true atom. -/
def trueChars : List Char := "true".data

/-- The rendered text of the JSON false atom. -/
def falseChars : List Char := "false".data

/-! ### The content hash: serde_json::to_string (compute_hash feeds this
string to SHA-256; `compute_hash` then hex-encodes the first eight digest
bytes, so equal streams give equal hashes) -/

mutual

/-- Compact `serde_json::to_string` of a value.  Object entries are emitted in
stored order, which for a parsed document is the `BTreeMap` key order. -/
def ser0 : Json → List Char
  | .null => nullChars
  | .bool true => trueChars
  | .bool false => falseChars
  | .num i => intChars i
  | .str s => '\"' :: (escStr s.data ++ ['\"'])
  | .arr xs => '[' :: serList xs
  | .obj kvs => braceL :: serObj kvs

/-- Array elements: first element, then separated rest and closing bracket. -/
def serList : List Json → List Char
  | [] => [']']
  | x :: xs => ser0 x ++ serSep xs

/-- Comma-separated remaining array elements plus the closing bracket. -/
def serSep : List Json → List Char
  | [] => [']']
  | x :: xs => ',' :: (ser0 x ++ serSep xs)

/-- One object entry: quoted escaped key, colon, serialized value. -/
def serEntry (k : String) (v : Json) : List Char :=
  '\"' :: (escStr k.data ++ ('\"' :: ':' :: ser0 v))

/-- Object entries: first entry, then separated rest and closing brace. -/
def serObj : List (String × Json) → List Char
  | [] => [braceR]
  | (k, v) :: ps => serEntry k v ++ serObjSep ps

/-- Comma-separated remaining object entries plus the closing brace. -/
def serObjSep : List (String × Json) → List Char
  | [] => [braceR]
  | (k, v) :: ps => ',' :: (serEntry k v ++ serObjSep ps)

end

/-! ### Prefix determinism of the serializer -/

/-- Constructor tag of a value. -/
def ctag : Json → Nat
  | .null => 0 | .bool _ => 1 | .num _ => 2 | .str _ => 3 | .arr _ => 4 | .obj _ => 5

/-- Constructor tag recoverable from the first serialized character. -/
def tagOfChar (c : Char) : Nat :=
  if c = 'n' then 0 else if c = 't' then 1 else if c = 'f' then 1
  else if c = '\"' then 3 else if c = '[' then 4 else if c = braceL then 5 else 2

theorem tagOfChar_digit {c : Char} (hd : isDigitCh c = true) : tagOfChar c = 2 := by
  have h1 : c ≠ 'n' := fun h => by rw [h] at hd; exact absurd hd (by decide)
  have h2 : c ≠ 't' := fun h => by rw [h] at hd; exact absurd hd (by decide)
  have h3 : c ≠ 'f' := fun h => by rw [h] at hd; exact absurd hd (by decide)
  have h4 : c ≠ '\"' := fun h => by rw [h] at hd; exact absurd hd (by decide)
  have h5 : c ≠ '[' := fun h => by rw [h] at hd; exact absurd hd (by decide)
  have h6 : c ≠ braceL := fun h => by rw [h] at hd; exact absurd hd (by decide)
  unfold tagOfChar
  rw [if_neg h1, if_neg h2, if_neg h3, if_neg h4, if_neg h5, if_neg h6]

theorem ser0_head_tag (v : Json) : ∃ c t, ser0 v = c :: t ∧ tagOfChar c = ctag v := by
  cases v with
  | null =>
    exact ⟨'n', ['u', 'l', 'l'], by simp only [ser0]; rfl, by simp only [ctag]; decide⟩
  | bool b =>
    cases b with
    | true =>
      exact ⟨'t', ['r', 'u', 'e'], by simp only [ser0]; rfl, by simp only [ctag]; decide⟩
    | false =>
      exact ⟨'f', ['a', 'l', 's', 'e'], by simp only [ser0]; rfl, by simp only [ctag]; decide⟩
  | num i =>
    obtain ⟨c, t, hc, hd⟩ := intChars_head i
    refine ⟨c, t, by simp only [ser0]; exact hc, ?_⟩
    simp only [ctag]
    rcases hd with rfl | hd
    · decide
    · exact tagOfChar_digit hd
  | str s =>
    exact ⟨'\"', escStr s.data ++ ['\"'], by simp only [ser0],
      by simp only [ctag]; decide⟩
  | arr xs =>
    exact ⟨'[', serList xs, by simp only [ser0], by simp only [ctag]; decide⟩
  | obj kvs =>
    exact ⟨braceL, serObj kvs, by simp only [ser0], by simp only [ctag]; decide⟩

theorem ser0_head_notDelim (v : Json) :
    ∃ c t, ser0 v = c :: t ∧ c ≠ ']' ∧ c ≠ ',' ∧ c ≠ braceR := by
  cases v with
  | null => exact ⟨'n', ['u', 'l', 'l'], by simp only [ser0]; rfl, by decide, by decide, by decide⟩
  | bool b =>
    cases b with
    | true =>
      exact ⟨'t', ['r', 'u', 'e'], by simp only [ser0]; rfl, by decide, by decide, by decide⟩
    | false =>
      exact ⟨'f', ['a', 'l', 's', 'e'], by simp only [ser0]; rfl, by decide, by decide, by decide⟩
  | num i =>
    obtain ⟨c, t, hc, hd⟩ := intChars_head i
    refine ⟨c, t, by simp only [ser0]; exact hc, ?_, ?_, ?_⟩ <;>
      (rcases hd with rfl | hd
       · decide
       · intro h
         rw [h] at hd
         exact absurd hd (by decide))
  | str s =>
    exact ⟨'\"', escStr s.data ++ ['\"'], by simp only [ser0],
      by decide, by decide, by decide⟩
  | arr xs =>
    exact ⟨'[', serList xs, by simp only [ser0], by decide, by decide, by decide⟩
  | obj kvs =>
    exact ⟨braceL, serObj kvs, by simp only [ser0], by decide, by decide, by decide⟩

/-- Element-level prefix determinism of the serializer. -/
def ElemPD (a : Json) : Prop :=
  ∀ (b : Json) (r1 r2 : List Char), gd r1 → gd r2 →
    ser0 a ++ r1 = ser0 b ++ r2 → a = b ∧ r1 = r2

theorem serSep_head (l : List Json) :
    ∃ c t, serSep l = c :: t ∧ (c = ',' ∨ c = ']') := by
  cases l with
  | nil => exact ⟨']', [], by simp only [serSep], Or.inr rfl⟩
  | cons x xs =>
    exact ⟨',', ser0 x ++ serSep xs, by simp only [serSep], Or.inl rfl⟩

theorem serObjSep_head (l : List (String × Json)) :
    ∃ c t, serObjSep l = c :: t ∧ (c = ',' ∨ c = braceR) := by
  cases l with
  | nil => exact ⟨braceR, [], by simp only [serObjSep], Or.inr rfl⟩
  | cons p ps =>
    obtain ⟨k, v⟩ := p
    exact ⟨',', serEntry k v ++ serObjSep ps, by simp only [serObjSep], Or.inl rfl⟩

theorem gd_serSep (l : List Json) (r : List Char) : gd (serSep l ++ r) := by
  obtain ⟨c, t, hc, hor⟩ := serSep_head l
  rw [hc, List.cons_append]
  rcases hor with rfl | rfl <;> exact gd_cons (by decide)

theorem gd_serObjSep (l : List (String × Json)) (r : List Char) :
    gd (serObjSep l ++ r) := by
  obtain ⟨c, t, hc, hor⟩ := serObjSep_head l
  rw [hc, List.cons_append]
  rcases hor with rfl | rfl <;> exact gd_cons (by decide)

theorem serEntryPD {k k2 : String} {v v2 : Json} {R1 R2 : List Char}
    (hv : ElemPD v) (g1 : gd R1) (g2 : gd R2)
    (h : serEntry k v ++ R1 = serEntry k2 v2 ++ R2) :
    k = k2 ∧ v = v2 ∧ R1 = R2 := by
  unfold serEntry at h
  simp only [List.cons_append, List.append_assoc, List.cons.injEq, true_and] at h
  obtain ⟨hk, h2⟩ := escStrPD h
  simp only [List.cons.injEq, true_and] at h2
  obtain ⟨hveq, hr⟩ := hv v2 R1 R2 g1 g2 h2
  exact ⟨String.ext hk, hveq, hr⟩

theorem serSepPD (xs : List Json) (IH : ∀ x ∈ xs, ElemPD x) :
    ∀ (ys : List Json) (r1 r2 : List Char),
      serSep xs ++ r1 = serSep ys ++ r2 → xs = ys ∧ r1 = r2 := by
  induction xs with
  | nil =>
    intro ys r1 r2 h
    cases ys with
    | nil => simpa [serSep] using h
    | cons y ys2 => simp [serSep] at h
  | cons x xs2 ih =>
    intro ys r1 r2 h
    cases ys with
    | nil => simp [serSep] at h
    | cons y ys2 =>
      simp only [serSep, List.cons_append, List.append_assoc, List.cons.injEq,
        true_and] at h
      obtain ⟨hx, h2⟩ := IH x (by simp) y (serSep xs2 ++ r1) (serSep ys2 ++ r2)
        (gd_serSep xs2 r1) (gd_serSep ys2 r2) h
      obtain ⟨hxs, hr⟩ := ih (fun z hz => IH z (by simp [hz])) ys2 r1 r2 h2
      exact ⟨by rw [hx, hxs], hr⟩

theorem serListPD (xs : List Json) (IH : ∀ x ∈ xs, ElemPD x) :
    ∀ (ys : List Json) (r1 r2 : List Char),
      serList xs ++ r1 = serList ys ++ r2 → xs = ys ∧ r1 = r2 := by
  intro ys r1 r2 h
  cases xs with
  | nil =>
    cases ys with
    | nil => simpa [serList] using h
    | cons y ys2 =>
      exfalso
      obtain ⟨c, t, hc, hnd, -, -⟩ := ser0_head_notDelim y
      simp only [serList, List.cons_append, List.append_assoc, hc,
        List.cons.injEq] at h
      exact hnd h.1.symm
  | cons x xs2 =>
    cases ys with
    | nil =>
      exfalso
      obtain ⟨c, t, hc, hnd, -, -⟩ := ser0_head_notDelim x
      simp only [serList, List.cons_append, List.append_assoc, hc,
        List.cons.injEq] at h
      exact hnd h.1
    | cons y ys2 =>
      simp only [serList, List.append_assoc] at h
      obtain ⟨hx, h2⟩ := IH x (by simp) y (serSep xs2 ++ r1) (serSep ys2 ++ r2)
        (gd_serSep xs2 r1) (gd_serSep ys2 r2) h
      obtain ⟨hxs, hr⟩ := serSepPD xs2 (fun z hz => IH z (by simp [hz])) ys2 r1 r2 h2
      exact ⟨by rw [hx, hxs], hr⟩

theorem serObjSepPD (kvs : List (String × Json)) (IH : ∀ p ∈ kvs, ElemPD p.2) :
    ∀ (ls : List (String × Json)) (r1 r2 : List Char),
      serObjSep kvs ++ r1 = serObjSep ls ++ r2 → kvs = ls ∧ r1 = r2 := by
  induction kvs with
  | nil =>
    intro ls r1 r2 h
    cases ls with
    | nil => simpa [serObjSep] using h
    | cons q qs =>
      exfalso
      obtain ⟨k2, v2⟩ := q
      simp only [serObjSep, List.cons_append, List.cons.injEq] at h
      exact absurd h.1 (by decide)
  | cons p ps ih =>
    intro ls r1 r2 h
    obtain ⟨k, v⟩ := p
    cases ls with
    | nil =>
      exfalso
      simp only [serObjSep, List.cons_append, List.cons.injEq] at h
      exact absurd h.1 (by decide)
    | cons q qs =>
      obtain ⟨k2, v2⟩ := q
      simp only [serObjSep, List.cons_append, List.append_assoc, List.cons.injEq,
        true_and] at h
      obtain ⟨hk, hv, hr⟩ := serEntryPD (IH (k, v) (by simp))
        (gd_serObjSep ps r1) (gd_serObjSep qs r2) h
      obtain ⟨hps, hr2⟩ := ih (fun z hz => IH z (by simp [hz])) qs r1 r2 hr
      exact ⟨by rw [hk, show v = v2 from hv, hps], hr2⟩

theorem serObjPD (kvs : List (String × Json)) (IH : ∀ p ∈ kvs, ElemPD p.2) :
    ∀ (ls : List (String × Json)) (r1 r2 : List Char),
      serObj kvs ++ r1 = serObj ls ++ r2 → kvs = ls ∧ r1 = r2 := by
  intro ls r1 r2 h
  cases kvs with
  | nil =>
    cases ls with
    | nil => simpa [serObj] using h
    | cons q qs =>
      exfalso
      obtain ⟨k2, v2⟩ := q
      simp only [serObj, serEntry, List.cons_append, List.cons.injEq] at h
      exact absurd h.1 (by decide)
  | cons p ps =>
    obtain ⟨k, v⟩ := p
    cases ls with
    | nil =>
      exfalso
      simp only [serObj, serEntry, List.cons_append, List.cons.injEq] at h
      exact absurd h.1 (by decide)
    | cons q qs =>
      obtain ⟨k2, v2⟩ := q
      simp only [serObj, List.append_assoc] at h
      obtain ⟨hk, hv, hr⟩ := serEntryPD (IH (k, v) (by simp))
        (gd_serObjSep ps r1) (gd_serObjSep qs r2) h
      obtain ⟨hps, hr2⟩ := serObjSepPD ps (fun z hz => IH z (by simp [hz])) qs r1 r2 hr
      exact ⟨by rw [hk, show v = v2 from hv, hps], hr2⟩

theorem serMainPD : ∀ (n : Nat) (a b : Json) (r1 r2 : List Char), sizeOf a ≤ n →
    gd r1 → gd r2 → ser0 a ++ r1 = ser0 b ++ r2 → a = b ∧ r1 = r2 := by
  intro n
  induction n using Nat.strong_induction_on with
  | _ n ih =>
  intro a b r1 r2 hsize g1 g2 h
  have htag : ctag a = ctag b := by
    obtain ⟨ca, ta, hca, hta⟩ := ser0_head_tag a
    obtain ⟨cb, tb, hcb, htb⟩ := ser0_head_tag b
    rw [hca, hcb] at h
    simp only [List.cons_append, List.cons.injEq] at h
    rw [← hta, ← htb, h.1]
  cases a with
  | null =>
    cases b <;> simp only [ctag] at htag <;> try omega
    simp only [ser0, nullChars, trueChars, falseChars, String.data,
      List.cons_append, List.cons.injEq, true_and] at h
    exact ⟨rfl, h⟩
  | bool x =>
    cases b <;> simp only [ctag] at htag <;> try omega
    next y =>
    cases x <;> cases y
    · simp only [ser0, nullChars, trueChars, falseChars, String.data,
      List.cons_append, List.cons.injEq, true_and] at h
      exact ⟨rfl, h⟩
    · exfalso; simp [ser0, trueChars, falseChars] at h
    · exfalso; simp [ser0, trueChars, falseChars] at h
    · simp only [ser0, nullChars, trueChars, falseChars, String.data,
      List.cons_append, List.cons.injEq, true_and] at h
      exact ⟨rfl, h⟩
  | num i =>
    cases b <;> simp only [ctag] at htag <;> try omega
    next j =>
    simp only [ser0] at h
    obtain ⟨hij, hr⟩ := intCharsPD h g1 g2
    exact ⟨by rw [hij], hr⟩
  | str s =>
    cases b <;> simp only [ctag] at htag <;> try omega
    next t =>
    simp only [ser0, List.cons_append, List.append_assoc, List.singleton_append,
      List.cons.injEq, true_and] at h
    obtain ⟨hdata, hr⟩ := escStrPD h
    exact ⟨by rw [String.ext hdata], hr⟩
  | arr xs =>
    cases b <;> simp only [ctag] at htag <;> try omega
    next ys =>
    simp only [ser0, nullChars, trueChars, falseChars, String.data,
      List.cons_append, List.cons.injEq, true_and] at h
    have IH : ∀ x ∈ xs, ElemPD x := by
      intro x hx b2 s1 s2 gg1 gg2 hh
      exact ih (sizeOf x) (lt_of_lt_of_le (sizeOf_mem_arr hx) hsize)
        x b2 s1 s2 le_rfl gg1 gg2 hh
    obtain ⟨hxs, hr⟩ := serListPD xs IH ys r1 r2 h
    exact ⟨by rw [hxs], hr⟩
  | obj kvs =>
    cases b <;> simp only [ctag] at htag <;> try omega
    next ls =>
    simp only [ser0, nullChars, trueChars, falseChars, String.data,
      List.cons_append, List.cons.injEq, true_and] at h
    have IH : ∀ p ∈ kvs, ElemPD p.2 := by
      intro p hp b2 s1 s2 gg1 gg2 hh
      exact ih (sizeOf p.2) (lt_of_lt_of_le (sizeOf_mem_obj hp) hsize)
        p.2 b2 s1 s2 le_rfl gg1 gg2 hh
    obtain ⟨hkvs, hr⟩ := serObjPD kvs IH ls r1 r2 h
    exact ⟨by rw [hkvs], hr⟩

/-- The serde_json serialization stream is prefix-deterministic. -/
theorem ser0PD {a b : Json} {r1 r2 : List Char} (g1 : gd r1) (g2 : gd r2)
    (h : ser0 a ++ r1 = ser0 b ++ r2) : a = b ∧ r1 = r2 :=
  serMainPD (sizeOf a) a b r1 r2 le_rfl g1 g2 h

/-- The serde_json serialization is injective: distinct parsed values always
produce distinct `to_string` outputs, hence distinct SHA-256 input streams. -/
theorem ser0_inj {a b : Json} (h : ser0 a = ser0 b) : a = b := by
  have h2 : ser0 a ++ ([] : List Char) = ser0 b ++ [] := by
    simpa using h
  exact (ser0PD gd_nil gd_nil h2).1

/-! ### Canonicalization: the value stored after parsing -/

mutual

/-- The serde_json Value obtained from a raw document with the given
syntactic object-entry order: the default `serde_json` map is a `BTreeMap`,
so parsing sorts every object's entries by key.  (A re-serialization of a
parsed document never carries duplicate keys, which is the situation the
claims quantify over.) -/
def canon : Json → Json
  | .null => .null
  | .bool b => .bool b
  | .num i => .num i
  | .str s => .str s
  | .arr xs => .arr (canonList xs)
  | .obj kvs => .obj (sortKeys (canonKvs kvs))

/-- Canonicalize each array element. -/
def canonList : List Json → List Json
  | [] => []
  | x :: xs => canon x :: canonList xs

/-- Canonicalize each object entry's value. -/
def canonKvs : List (String × Json) → List (String × Json)
  | [] => []
  | (k, v) :: ps => (k, canon v) :: canonKvs ps

end

theorem canonKvs_eq_map (l : List (String × Json)) :
    canonKvs l = l.map fun p => (p.1, canon p.2) := by
  induction l with
  | nil => simp [canonKvs]
  | cons p ps ih =>
    obtain ⟨k, v⟩ := p
    simp [canonKvs, ih]

theorem sizeOf_perm_eq {l1 l2 : List (String × Json)} (h : l1.Perm l2) :
    sizeOf l1 = sizeOf l2 := by
  induction h with
  | nil => rfl
  | cons x _ ih => simp only [List.cons.sizeOf_spec]; omega
  | swap x y l => simp only [List.cons.sizeOf_spec]; omega
  | trans _ _ ih1 ih2 => omega

/-! ### The single-pass hash stream (collect_refs_and_hash) -/

mutual

/-- Byte stream fed to the SHA-256 hasher by `collect_refs_and_hash`: for an
object, an opening brace, then for each key in sorted order the raw key
bytes, a colon and the value's stream, then a closing brace; for an array,
brackets around the concatenated element streams (no separators); for a
string, raw quotes around the raw bytes (no escaping); `to_string` text for
numbers, booleans and null.  `extract_refs_and_hash` hex-encodes the first
eight digest bytes of this stream; the traversal's reference side does not
influence the hash and is not modelled. -/
def crhStream : Json → List Char
  | .null => nullChars
  | .bool true => trueChars
  | .bool false => falseChars
  | .num i => intChars i
  | .str s => '\"' :: (s.data ++ ['\"'])
  | .arr xs => '[' :: (crhList xs ++ [']'])
  | .obj kvs => braceL :: (crhObj (sortKeys kvs) ++ [braceR])
termination_by v => sizeOf v
decreasing_by
  · simp only [Json.arr.sizeOf_spec]; omega
  · have := sizeOf_perm_eq (sortKeys_perm kvs)
    simp only [Json.obj.sizeOf_spec]
    omega

/-- Concatenated element streams of an array. -/
def crhList : List Json → List Char
  | [] => []
  | x :: xs => crhStream x ++ crhList xs
termination_by l => sizeOf l
decreasing_by
  · simp only [List.cons.sizeOf_spec]; omega
  · simp only [List.cons.sizeOf_spec]; omega

/-- Concatenated `key ++ ":" ++ value` streams of a sorted object. -/
def crhObj : List (String × Json) → List Char
  | [] => []
  | (k, v) :: ps => k.data ++ (':' :: crhStream v ++ crhObj ps)
termination_by l => sizeOf l
decreasing_by
  · simp only [List.cons.sizeOf_spec, Prod.mk.sizeOf_spec]; omega
  · simp only [List.cons.sizeOf_spec, Prod.mk.sizeOf_spec]; omega

end

/-! ### Reorderings of a raw document -/

mutual

/-- Two raw documents are equal up to object key order: identical scalars,
identical array element order, and object entry lists that agree entrywise
after some permutation.  Keys are required duplicate-free, which is
automatic for a re-serialization of a parsed document. -/
def KeyPerm : Json → Json → Prop
  | .null, .null => True
  | .bool a, .bool b => a = b
  | .num a, .num b => a = b
  | .str a, .str b => a = b
  | .arr xs, .arr ys => KeyPermL xs ys
  | .obj kvs, .obj ls =>
    (kvs.map Prod.fst).Nodup ∧ ∃ mid, KeyPermKv kvs mid ∧ mid.Perm ls
  | _, _ => False

/-- Elementwise `KeyPerm` on array elements. -/
def KeyPermL : List Json → List Json → Prop
  | [], [] => True
  | x :: xs, y :: ys => KeyPerm x y ∧ KeyPermL xs ys
  | _, _ => False

/-- Entrywise equality of keys and `KeyPerm` of values. -/
def KeyPermKv : List (String × Json) → List (String × Json) → Prop
  | [], [] => True
  | (k, v) :: ps, q :: qs => k = q.1 ∧ KeyPerm v q.2 ∧ KeyPermKv ps qs
  | _, _ => False

end

theorem keyPermKv_fst : ∀ {kvs mid : List (String × Json)}, KeyPermKv kvs mid →
    kvs.map Prod.fst = mid.map Prod.fst := by
  intro kvs
  induction kvs with
  | nil =>
    intro mid h
    cases mid with
    | nil => rfl
    | cons q qs => exact absurd h (by simp [KeyPermKv])
  | cons p ps ih =>
    intro mid h
    obtain ⟨k, v⟩ := p
    cases mid with
    | nil => exact absurd h (by simp [KeyPermKv])
    | cons q qs =>
      obtain ⟨h1, _, h3⟩ := h
      simp only [List.map_cons, h1, ih h3]

theorem keyPermKv_forall2
    {P : Json → Prop}
    (hP : ∀ v, P v → ∀ w, KeyPerm v w → crhStream v = crhStream w) :
    ∀ {kvs mid : List (String × Json)}, (∀ p ∈ kvs, P p.2) → KeyPermKv kvs mid →
      List.Forall₂ (fun p q => p.1 = q.1 ∧ crhStream p.2 = crhStream q.2) kvs mid := by
  intro kvs
  induction kvs with
  | nil =>
    intro mid _ h
    cases mid with
    | nil => exact List.Forall₂.nil
    | cons q qs => exact absurd h (by simp [KeyPermKv])
  | cons p ps ih =>
    intro mid hmem h
    obtain ⟨k, v⟩ := p
    cases mid with
    | nil => exact absurd h (by simp [KeyPermKv])
    | cons q qs =>
      obtain ⟨h1, h2, h3⟩ := h
      exact List.Forall₂.cons
        ⟨h1, hP v (hmem (k, v) (by simp)) q.2 h2⟩
        (ih (fun z hz => hmem z (by simp [hz])) h3)

theorem crhObj_congr :
    ∀ {ps qs : List (String × Json)},
      List.Forall₂ (fun p q => p.1 = q.1 ∧ crhStream p.2 = crhStream q.2) ps qs →
      crhObj ps = crhObj qs := by
  intro ps qs h
  induction h with
  | nil => rfl
  | @cons a b l m hab _ ih =>
    obtain ⟨k, v⟩ := a
    obtain ⟨k2, v2⟩ := b
    obtain ⟨h1, h2⟩ := hab
    simp only at h1
    simp only [crhObj, h1, h2, ih]

/-- The hash stream of `collect_refs_and_hash` is invariant under object key
reorder (the traversal sorts keys at every level). -/
theorem crh_keyPerm : ∀ v, ∀ w, KeyPerm v w → crhStream v = crhStream w := by
  intro v
  induction v using Json.indMem with
  | hnull =>
    intro w h
    cases w <;> simp only [KeyPerm] at h
    rfl
  | hbool b =>
    intro w h
    cases w <;> simp only [KeyPerm] at h
    rw [h]
  | hnum n =>
    intro w h
    cases w <;> simp only [KeyPerm] at h
    rw [h]
  | hstr s =>
    intro w h
    cases w <;> simp only [KeyPerm] at h
    rw [h]
  | harr xs IH =>
    intro w h
    cases w <;> simp only [KeyPerm] at h
    next ys =>
    have : ∀ (as : List Json), (∀ x ∈ as, ∀ w2, KeyPerm x w2 → crhStream x = crhStream w2) →
        ∀ bs, KeyPermL as bs → crhList as = crhList bs := by
      intro as
      induction as with
      | nil =>
        intro _ bs hb
        cases bs with
        | nil => rfl
        | cons y ys2 => exact absurd hb (by simp [KeyPermL])
      | cons a as2 ih2 =>
        intro hmem bs hb
        cases bs with
        | nil => exact absurd hb (by simp [KeyPermL])
        | cons y ys2 =>
          obtain ⟨h1, h2⟩ := hb
          simp only [crhList, hmem a (by simp) y h1,
            ih2 (fun z hz => hmem z (by simp [hz])) ys2 h2]
    simp only [crhStream, this xs IH ys h]
  | hobj kvs IH =>
    intro w h
    cases w <;> simp only [KeyPerm] at h
    next ls =>
    obtain ⟨hnd, mid, hkv, hperm⟩ := h
    have hf2 : List.Forall₂ (fun p q => p.1 = q.1 ∧ crhStream p.2 = crhStream q.2)
        (sortKeys kvs) (sortKeys mid) :=
      sortKeys_forall2 (fun a b hh => hh.1)
        (keyPermKv_forall2 (P := fun v => ∀ w2, KeyPerm v w2 → crhStream v = crhStream w2)
          (fun v hv w2 h2 => hv w2 h2) IH hkv)
    have hmidnd : (mid.map Prod.fst).Nodup := by
      rw [← keyPermKv_fst hkv]
      exact hnd
    have hsort : sortKeys mid = sortKeys ls := sortKeys_eq_of_perm hperm hmidnd
    simp only [crhStream, crhObj_congr hf2, hsort]

theorem canonKvs_keyPerm (kvs : List (String × Json))
    (IH : ∀ p ∈ kvs, ∀ w, KeyPerm p.2 w → canon p.2 = canon w) :
    ∀ mid, KeyPermKv kvs mid → canonKvs kvs = canonKvs mid := by
  induction kvs with
  | nil =>
    intro mid h
    cases mid with
    | nil => rfl
    | cons q qs => exact absurd h (by simp [KeyPermKv])
  | cons p ps ih =>
    intro mid h
    obtain ⟨k, v⟩ := p
    cases mid with
    | nil => exact absurd h (by simp [KeyPermKv])
    | cons q qs =>
      obtain ⟨h1, h2, h3⟩ := h
      obtain ⟨k2, v2⟩ := q
      simp only at h1
      simp only [canonKvs, h1, IH (k, v) (by simp) v2 h2,
        ih (fun z hz => IH z (by simp [hz])) qs h3]

/-- Parsing is invariant under object key reorder: two raw texts that differ
only in the order of object entries parse to the same serde_json Value. -/
theorem canon_keyPerm : ∀ v, ∀ w, KeyPerm v w → canon v = canon w := by
  intro v
  induction v using Json.indMem with
  | hnull =>
    intro w h
    cases w <;> simp only [KeyPerm] at h
    rfl
  | hbool b =>
    intro w h
    cases w <;> simp only [KeyPerm] at h
    rw [h]
  | hnum n =>
    intro w h
    cases w <;> simp only [KeyPerm] at h
    rw [h]
  | hstr s =>
    intro w h
    cases w <;> simp only [KeyPerm] at h
    rw [h]
  | harr xs IH =>
    intro w h
    cases w <;> simp only [KeyPerm] at h
    next ys =>
    have : ∀ (as : List Json), (∀ x ∈ as, ∀ w2, KeyPerm x w2 → canon x = canon w2) →
        ∀ bs, KeyPermL as bs → canonList as = canonList bs := by
      intro as
      induction as with
      | nil =>
        intro _ bs hb
        cases bs with
        | nil => rfl
        | cons y ys2 => exact absurd hb (by simp [KeyPermL])
      | cons a as2 ih2 =>
        intro hmem bs hb
        cases bs with
        | nil => exact absurd hb (by simp [KeyPermL])
        | cons y ys2 =>
          obtain ⟨h1, h2⟩ := hb
          simp only [canonList, hmem a (by simp) y h1,
            ih2 (fun z hz => hmem z (by simp [hz])) ys2 h2]
    simp only [canon, this xs IH ys h]
  | hobj kvs IH =>
    intro w h
    cases w <;> simp only [KeyPerm] at h
    next ls =>
    obtain ⟨hnd, mid, hkv, hperm⟩ := h
    have h1 : canonKvs kvs = canonKvs mid := canonKvs_keyPerm kvs IH mid hkv
    have hpm : (canonKvs mid).Perm (canonKvs ls) := by
      rw [canonKvs_eq_map, canonKvs_eq_map]
      exact hperm.map _
    have hndm : ((canonKvs mid).map Prod.fst).Nodup := by
      have hbase : (mid.map Prod.fst).Nodup := by
        rw [← keyPermKv_fst hkv]
        exact hnd
      simpa [canonKvs_eq_map, List.map_map, Function.comp] using hbase
    have hsort : sortKeys (canonKvs mid) = sortKeys (canonKvs ls) :=
      sortKeys_eq_of_perm hpm hndm
    simp only [canon, h1, hsort]

/-- One array somewhere in the document has its elements rearranged into a
genuinely different order; everything else is unchanged. -/
inductive ArrReorder : Json → Json → Prop where
  | here : ∀ (xs ys : List Json), xs.Perm ys → xs ≠ ys →
      ArrReorder (.arr xs) (.arr ys)
  | inArr : ∀ (pre post : List Json) (x y : Json), ArrReorder x y →
      ArrReorder (.arr (pre ++ x :: post)) (.arr (pre ++ y :: post))
  | inObj : ∀ (pre post : List (String × Json)) (k : String) (x y : Json),
      ArrReorder x y →
      ArrReorder (.obj (pre ++ (k, x) :: post)) (.obj (pre ++ (k, y) :: post))

theorem arrReorder_ne {v w : Json} (h : ArrReorder v w) : v ≠ w := by
  induction h with
  | here xs ys hp hne =>
    intro he
    injection he with h2
    exact hne h2
  | inArr pre post x y hr ih =>
    intro he
    injection he with h2
    have h3 := List.append_cancel_left h2
    injection h3 with h4
    exact ih h4
  | inObj pre post k x y hr ih =>
    intro he
    injection he with h2
    have h3 := List.append_cancel_left h2
    injection h3 with h4
    exact ih (congrArg Prod.snd h4)

/-- Reordering the elements of any array inside a parsed value changes the
byte stream that `compute_hash` feeds to SHA-256. -/
theorem arrReorder_ser0_ne {v w : Json} (h : ArrReorder v w) : ser0 v ≠ ser0 w :=
  fun he => arrReorder_ne h (ser0_inj he)

/-! ### Value navigation (serde_json::Value accessors) -/

/-- `Value::get(key)` on an object: the value stored under the key.  Parsed
objects carry unique keys, for which taking the first match is exact. -/
def Json.get : Json → String → Option Json
  | .obj kvs, k => (kvs.find? (fun p => p.1 == k)).map Prod.snd
  | _, _ => none

/-- `Value::as_str`. -/
def asStr : Json → Option String
  | .str s => some s
  | _ => none

/-- `Value::as_bool`. -/
def asBool : Json → Option Bool
  | .bool b => some b
  | _ => none

/-- `Value::as_array`. -/
def asArr : Json → Option (List Json)
  | .arr xs => some xs
  | _ => none

/-- `str::replace(pat, sub)`: replace every non-overlapping occurrence,
left to right. -/
def replAll (pat sub : List Char) : List Char → List Char
  | [] => []
  | c :: rest =>
    if startsWithCh pat (c :: rest) && !pat.isEmpty then
      sub ++ replAll pat sub (List.drop (pat.length - 1) rest)
    else
      c :: replAll pat sub rest
termination_by l => l.length
decreasing_by
  · simp only [List.length_cons, List.length_drop]
    omega
  · simp only [List.length_cons]
    omega

/-- `.replace("#/definitions/", "")` applied to a `$ref` string. -/
def stripDefs (s : String) : String := ⟨replAll "#/definitions/".data [] s.data⟩

/-- `.replace("#/components/schemas/", "")` applied to a `$ref` string. -/
def stripComp (s : String) : String :=
  ⟨replAll "#/components/schemas/".data [] s.data⟩

/-! ### Dialect detection (OpenApiParser::detect_version) -/

/-- The supported dialects. -/
inductive OpenApiVersion where
  | Swagger2 | OpenApi30 | OpenApi31
deriving DecidableEq

/-- The error taxonomy of the crate (types/error.rs is absent from the
sources; the variants and their payload shapes are reconstructed from every
construction site in parser.rs and cache.rs). -/
inductive OasErrorM where
  | InvalidJson (msg : String)
  | InvalidYaml (msg : String)
  | InvalidOpenApi (msg : String)
  | UnsupportedVersion (v : String)
  | PathTraversal (p : String)
  | FileNotFound (p : String)
  | PermissionDenied (p : String)
  | ReadError (msg : String)
  | ConnectionFailed (msg : String)
  | HttpError (status : Nat) (msg : String)
  | CacheNotFound
  | CacheCorrupted (msg : String)
  | CacheWriteFailed (msg : String)
deriving DecidableEq

/-- OpenApiParser::detect_version: a `swagger` field starting with `2.`
selects Swagger 2; otherwise an `openapi` field starting with `3.0` or `3.1`
selects the modern dialect, any other `openapi` value is unsupported, and a
missing `openapi` field is a missing-field error. -/
def detect_version (v : Json) : Except OasErrorM OpenApiVersion :=
  if (match (v.get "swagger").bind asStr with
      | some s => strStarts s "2."
      | none => false) then
    .ok .Swagger2
  else
    match (v.get "openapi").bind asStr with
    | some o =>
      if strStarts o "3.0" then .ok .OpenApi30
      else if strStarts o "3.1" then .ok .OpenApi31
      else .error (.UnsupportedVersion o)
    | none => .error (.InvalidOpenApi "Missing 'openapi' or 'swagger' field")

/-! ### Swagger-2 operation normalization -/

/-- Parameter locations of the unified model. -/
inductive ParameterLocation where
  | path | query | header | cookie
deriving DecidableEq

/-- The unified Parameter model. -/
structure ParameterM where
  name : String
  location : ParameterLocation
  required : Bool
  description : Option String
  schema_ref : Option String
  schema_type : Option String
deriving DecidableEq

/-- The unified RequestBody model. -/
structure RequestBodyM where
  required : Bool
  description : Option String
  content_types : List String
  schema_ref : Option String
deriving DecidableEq

/-- The unified Response model. -/
structure ResponseM where
  status_code : String
  description : Option String
  content_types : List String
  schema_ref : Option String
deriving DecidableEq

/-- `operation.get("parameters").and_then(as_array)`, defaulting to no
iterations. -/
def paramsArr (op : Json) : List Json :=
  match (op.get "parameters").bind asArr with
  | some xs => xs
  | none => []

/-- `param.get("in").and_then(as_str).unwrap_or("")`. -/
def inVal (p : Json) : String :=
  match (p.get "in").bind asStr with
  | some s => s
  | none => ""

/-- The `in` string to parameter-location mapping of
parse_swagger2_parameters (`formData` and anything else falls through). -/
def locOf (s : String) : Option ParameterLocation :=
  if s = "path" then some .path
  else if s = "query" then some .query
  else if s = "header" then some .header
  else none

/-- The parameter record parse_swagger2_parameters pushes. -/
def mkSwagger2Param (p : Json) (loc : ParameterLocation) : ParameterM :=
  { name := ((p.get "name").bind asStr).getD ""
    location := loc
    required := ((p.get "required").bind asBool).getD (decide (loc = ParameterLocation.path))
    description := (p.get "description").bind asStr
    schema_ref := none
    schema_type := (p.get "type").bind asStr }

/-- OpenApiParser::parse_swagger2_parameters. -/
def parse_swagger2_parameters (op : Json) : List ParameterM :=
  (paramsArr op).filterMap fun p =>
    if inVal p = "body" then none
    else
      match locOf (inVal p) with
      | some loc => some (mkSwagger2Param p loc)
      | none => none

/-- `param.get("in").and_then(as_str) == Some("body")`. -/
def isBodyParam (p : Json) : Bool := (p.get "in").bind asStr == some "body"

/-- The request-body record parse_swagger2_body builds from a body
parameter. -/
def mkSwagger2Body (op p : Json) : RequestBodyM :=
  { required := ((p.get "required").bind asBool).getD false
    description := (p.get "description").bind asStr
    content_types :=
      match (op.get "consumes").bind asArr with
      | some xs => xs.filterMap asStr
      | none => ["application/json"]
    schema_ref := (((p.get "schema").bind (fun s => s.get "$ref")).bind asStr).map stripDefs }

/-- OpenApiParser::parse_swagger2_body: the first body-location parameter is
hoisted into the single request-body model. -/
def parse_swagger2_body (op : Json) : Option RequestBodyM :=
  ((paramsArr op).find? isBodyParam).map (mkSwagger2Body op)

/-- `operation.get("responses").and_then(as_object)` entries. -/
def respEntries (op : Json) : List (String × Json) :=
  match op.get "responses" with
  | some (.obj kvs) => kvs
  | _ => []

/-- The response record parse_swagger2_responses inserts for one status. -/
def mkSwagger2Response (op : Json) (st : String) (r : Json) : ResponseM :=
  { status_code := st
    description := (r.get "description").bind asStr
    content_types :=
      match (op.get "produces").bind asArr with
      | some xs => xs.filterMap asStr
      | none => ["application/json"]
    schema_ref := (((r.get "schema").bind (fun s => s.get "$ref")).bind asStr).map stripDefs }

/-- OpenApiParser::parse_swagger2_responses, as the association list the
status-keyed HashMap is built from. -/
def parse_swagger2_responses (op : Json) : List (String × ResponseM) :=
  (respEntries op).map fun p => (p.1, mkSwagger2Response op p.1 p.2)

/-! ### Whole-document, per-endpoint and per-schema hash inputs -/

/-- Lower-casing used by parse_http_method. -/
def toLowerStr (s : String) : String := ⟨s.data.map Char.toLower⟩

/-- parse_http_method recognizes exactly the eight HTTP methods. -/
def isHttpMethod (m : String) : Bool :=
  let l := toLowerStr m
  l = "get" || l = "post" || l = "put" || l = "patch" || l = "delete" ||
    l = "head" || l = "options" || l = "trace"

/-- The `(path, method, operation)` triples parse_swagger2_paths_parallel and
parse_openapi3_paths_parallel collect from the paths object. -/
def opTriples (v : Json) : List (String × String × Json) :=
  match v.get "paths" with
  | some (.obj paths) =>
    paths.flatMap fun q =>
      match q.2 with
      | .obj methods =>
        methods.filterMap fun mp =>
          if isHttpMethod mp.1 then some (q.1, mp.1, mp.2) else none
      | _ => []
  | _ => []

/-- Per-endpoint hash input streams: extract_refs_and_hash applied to every
collected operation sub-document. -/
def endpointHashStreams (v : Json) : List (List Char) :=
  (opTriples v).map fun t => crhStream t.2.2

/-- `definitions` entries (legacy dialect schema definitions). -/
def definitionsEntries (v : Json) : List (String × Json) :=
  match v.get "definitions" with
  | some (.obj kvs) => kvs
  | _ => []

/-- `components.schemas` entries (modern dialect schema definitions). -/
def componentSchemas (v : Json) : List (String × Json) :=
  match (v.get "components").bind (fun c => c.get "schemas") with
  | some (.obj kvs) => kvs
  | _ => []

/-- Per-schema hash input streams, legacy dialect. -/
def schemaHashStreams2 (v : Json) : List (String × List Char) :=
  (definitionsEntries v).map fun p => (p.1, crhStream p.2)

/-- Per-schema hash input streams, modern dialect. -/
def schemaHashStreams3 (v : Json) : List (String × List Char) :=
  (componentSchemas v).map fun p => (p.1, crhStream p.2)

/-- The byte stream compute_hash feeds to SHA-256: the
`serde_json::to_string` text of the parsed Value; the whole-document
`content_hash` is the hex encoding of the first eight digest bytes, so two
documents get the same `content_hash` exactly when these streams collide. -/
def contentHashInput (v : Json) : List Char := ser0 v

/-- C1.  For every raw document, parsing a re-serialization of it with object
keys in a different order yields the identical parsed value, hence an
identical whole-document `content_hash` and identical per-endpoint and
per-schema hashes; re-serializing it with the elements of any array in a
genuinely different order changes the byte stream behind the document's
`content_hash` (and therefore, under SHA-256 collision-freeness, the hash). -/
theorem c1_hash_determinism :
    (∀ r r2 : Json, KeyPerm r r2 →
      canon r = canon r2 ∧
      contentHashInput (canon r) = contentHashInput (canon r2) ∧
      endpointHashStreams (canon r) = endpointHashStreams (canon r2) ∧
      schemaHashStreams2 (canon r) = schemaHashStreams2 (canon r2) ∧
      schemaHashStreams3 (canon r) = schemaHashStreams3 (canon r2)) ∧
    (∀ v w : Json, ArrReorder v w → contentHashInput v ≠ contentHashInput w) := by
  constructor
  · intro r r2 h
    have hc := canon_keyPerm r r2 h
    exact ⟨hc, by rw [hc], by rw [hc], by rw [hc], by rw [hc]⟩
  · intro v w h
    exact arrReorder_ser0_ne h

theorem c1_hash_determinism_witness :
    canon (Json.obj [("b", Json.num 1), ("a", Json.num 2)]) =
      canon (Json.obj [("a", Json.num 2), ("b", Json.num 1)]) ∧
    contentHashInput (Json.arr [Json.num 1, Json.num 2]) ≠
      contentHashInput (Json.arr [Json.num 2, Json.num 1]) := by
  constructor
  · refine (c1_hash_determinism.1 _ _ ?_).1
    simp only [KeyPerm, KeyPermKv]
    refine ⟨by simp, [("b", Json.num 1), ("a", Json.num 2)], ⟨rfl, rfl, rfl, rfl, trivial⟩, ?_⟩
    exact List.Perm.swap ("a", Json.num 2) ("b", Json.num 1) []
  · refine c1_hash_determinism.2 _ _ ?_
    exact ArrReorder.here _ _ (List.Perm.swap (Json.num 2) (Json.num 1) []) (by simp)

/-- C2 counterexample: two arrays of identical shape that differ in scalar
values — indeed one is an element reorder of the other — feed the identical
byte stream to the single-pass hasher, because array element streams are
concatenated without separators ("1" then "11" and "11" then "1" both feed
"111" between the brackets).  The claimed "digest differs" direction is
therefore false on the code. -/
theorem intChars_one : intChars 1 = ['1'] := by
  have h : intChars 1 = natChars 1 := by
    rw [show intChars 1 = natChars (Int.toNat 1) from by norm_num [intChars]]
    rfl
  rw [h]
  norm_num [natChars, digitCh]

theorem intChars_eleven : intChars 11 = ['1', '1'] := by
  have h : intChars 11 = natChars 11 := by
    rw [show intChars 11 = natChars (Int.toNat 11) from by norm_num [intChars]]
    rfl
  rw [h]
  norm_num [natChars, digitCh]

theorem c2_digest_collision :
    crhStream (Json.arr [Json.num 1, Json.num 11]) =
      crhStream (Json.arr [Json.num 11, Json.num 1]) ∧
    Json.arr [Json.num 1, Json.num 11] ≠ Json.arr [Json.num 11, Json.num 1] ∧
    ([Json.num 1, Json.num 11]).Perm [Json.num 11, Json.num 1] := by
  refine ⟨?_, by simp, List.Perm.swap (Json.num 11) (Json.num 1) []⟩
  simp [crhStream, crhList, intChars_one, intChars_eleven]

/-- C2 amended.  The single-pass digest is invariant under object key
reorder, but it does not separate all other pairs: values differing in
scalar values, key sets, or array element order can collide, because the
hash stream concatenates tokens without separators. -/
theorem c2_digest_amended :
    (∀ v w : Json, KeyPerm v w → crhStream v = crhStream w) ∧
    (∃ xs ys : List Json, xs ≠ ys ∧ xs.Perm ys ∧
      crhStream (Json.arr xs) = crhStream (Json.arr ys)) := by
  refine ⟨fun v w h => crh_keyPerm v w h, ?_⟩
  refine ⟨[Json.num 1, Json.num 11], [Json.num 11, Json.num 1], by simp,
    List.Perm.swap (Json.num 11) (Json.num 1) [], ?_⟩
  simp [crhStream, crhList, intChars_one, intChars_eleven]

theorem c2_digest_amended_witness :
    crhStream (Json.obj [("y", Json.num 4), ("x", Json.num 3)]) =
      crhStream (Json.obj [("x", Json.num 3), ("y", Json.num 4)]) := by
  refine c2_digest_amended.1 _ _ ?_
  simp only [KeyPerm, KeyPermKv]
  refine ⟨by simp, [("y", Json.num 4), ("x", Json.num 3)], ⟨rfl, rfl, rfl, rfl, trivial⟩, ?_⟩
  exact List.Perm.swap ("x", Json.num 3) ("y", Json.num 4) []

/-- C7 counterexample: a document whose legacy version field is present with
a non-2.x value and which has no modern version field produces the
missing-field error, not the unsupported-version error the claim requires
for "any other present version value". -/
theorem c7_detect_version_counterexample :
    detect_version (Json.obj [("swagger", Json.str "1.0")]) =
      .error (.InvalidOpenApi "Missing 'openapi' or 'swagger' field") ∧
    detect_version (Json.obj [("swagger", Json.str "1.0")]) ≠
      .error (.UnsupportedVersion "1.0") := by
  refine ⟨rfl, ?_⟩
  intro h
  have h2 := Except.error.inj
    ((rfl : detect_version (Json.obj [("swagger", Json.str "1.0")]) =
      Except.error (OasErrorM.InvalidOpenApi
        "Missing 'openapi' or 'swagger' field")).symm.trans h)
  exact OasErrorM.noConfusion h2

/-- C7 amended.  The classification the code implements: a legacy version
field with a 2.x value selects the legacy dialect; otherwise, when a modern
version field is present, a 3.0.x or 3.1.x value selects the modern dialect
and any other modern value yields the unsupported-version error; when there
is no 2.x legacy field and no modern field at all, the result is the
missing-field error — in particular, a present legacy field with a non-2.x
value and no modern field also yields the missing-field error. -/
theorem c7_detect_version_amended (v : Json) :
    (∀ s, (v.get "swagger").bind asStr = some s → strStarts s "2." = true →
      detect_version v = .ok .Swagger2) ∧
    ((match (v.get "swagger").bind asStr with
      | some s => strStarts s "2."
      | none => false) = false →
      (∀ o, (v.get "openapi").bind asStr = some o →
        (strStarts o "3.0" = true → detect_version v = .ok .OpenApi30) ∧
        (strStarts o "3.0" = false → strStarts o "3.1" = true →
          detect_version v = .ok .OpenApi31) ∧
        (strStarts o "3.0" = false → strStarts o "3.1" = false →
          detect_version v = .error (.UnsupportedVersion o))) ∧
      ((v.get "openapi").bind asStr = none →
        detect_version v = .error (.InvalidOpenApi "Missing 'openapi' or 'swagger' field"))) := by
  constructor
  · intro s hs h2
    unfold detect_version
    rw [hs]
    simp [h2]
  · intro hcond
    constructor
    · intro o ho
      refine ⟨?_, ?_, ?_⟩
      · intro h30
        unfold detect_version
        rw [hcond, ho]
        simp [h30]
      · intro h30 h31
        unfold detect_version
        rw [hcond, ho]
        simp [h30, h31]
      · intro h30 h31
        unfold detect_version
        rw [hcond, ho]
        simp [h30, h31]
    · intro ho
      unfold detect_version
      rw [hcond, ho]
      simp

theorem c7_detect_version_amended_witness :
    detect_version (Json.obj [("openapi", Json.str "3.0.1")]) = .ok .OpenApi30 ∧
    detect_version (Json.obj [("swagger", Json.str "2.0")]) = .ok .Swagger2 := by
  constructor
  · exact (((c7_detect_version_amended (Json.obj [("openapi", Json.str "3.0.1")])).2
      rfl).1 "3.0.1" rfl).1 (by decide)
  · exact (c7_detect_version_amended (Json.obj [("swagger", Json.str "2.0")])).1
      "2.0" rfl (by decide)

/-- A Swagger-2 operation whose single parameter sits in the `formData`
location, a non-body location the legacy dialect allows. -/
def opFormData : Json :=
  Json.obj [("parameters",
    Json.arr [Json.obj [("in", Json.str "formData"), ("name", Json.str "f")]])]

/-- C8 counterexample: the `formData` parameter is a non-body parameter
present in the document, yet the resulting parameter list is empty — the
parser maps only path, query and header locations and silently drops the
rest, contradicting "every non-body parameter location present in the
document maps directly". -/
theorem c8_parameters_counterexample :
    parse_swagger2_parameters opFormData = [] ∧
    paramsArr opFormData =
      [Json.obj [("in", Json.str "formData"), ("name", Json.str "f")]] ∧
    inVal (Json.obj [("in", Json.str "formData"), ("name", Json.str "f")]) =
      "formData" ∧
    "formData" ≠ "body" := by
  exact ⟨rfl, rfl, rfl, by decide⟩

theorem locOf_ne_body {s : String} {loc : ParameterLocation}
    (h : locOf s = some loc) : s ≠ "body" := by
  intro he
  subst he
  simp [locOf] at h

/-- C8 amended.  When normalizing a legacy-dialect operation: body-location
parameters are hoisted into the single request-body model (the first one
populates it, and one exists exactly when a body parameter exists);
consumes/produces media-type lists default to `application/json` when
unspecified; and the path, query and header parameter locations map
directly into the endpoint's parameter list — other locations (for example
`formData`) are dropped. -/
theorem c8_swagger2_operation_amended (op : Json) :
    ((parse_swagger2_body op).isSome ↔ ∃ p ∈ paramsArr op, isBodyParam p = true) ∧
    (∀ p, (paramsArr op).find? isBodyParam = some p →
      parse_swagger2_body op = some (mkSwagger2Body op p)) ∧
    (op.get "consumes" = none → ∀ b, parse_swagger2_body op = some b →
      b.content_types = ["application/json"]) ∧
    (op.get "produces" = none → ∀ st r, (st, r) ∈ parse_swagger2_responses op →
      r.content_types = ["application/json"]) ∧
    (∀ q ∈ parse_swagger2_parameters op, ∃ p ∈ paramsArr op, ∃ loc,
      locOf (inVal p) = some loc ∧ q = mkSwagger2Param p loc) ∧
    (∀ p ∈ paramsArr op, ∀ loc, locOf (inVal p) = some loc →
      mkSwagger2Param p loc ∈ parse_swagger2_parameters op) := by
  refine ⟨?_, ?_, ?_, ?_, ?_, ?_⟩
  · constructor
    · intro h
      rw [parse_swagger2_body] at h
      rcases hf : (paramsArr op).find? isBodyParam with _ | p
      · rw [hf] at h
        simp at h
      · exact ⟨p, List.mem_of_find?_eq_some hf, List.find?_some hf⟩
    · rintro ⟨p, hp, hb⟩
      rw [parse_swagger2_body]
      rcases hf : (paramsArr op).find? isBodyParam with _ | q
      · have := List.find?_eq_none.mp hf p hp
        rw [hb] at this
        exact absurd rfl this
      · simp [hf]
  · intro p hp
    rw [parse_swagger2_body, hp]
    rfl
  · intro hcons b hb
    rw [parse_swagger2_body] at hb
    obtain ⟨p, hp, rfl⟩ := Option.map_eq_some'.mp hb
    simp [mkSwagger2Body, hcons]
  · intro hprod st r hr
    rw [parse_swagger2_responses] at hr
    obtain ⟨q, hq, he⟩ := List.mem_map.mp hr
    have : r = mkSwagger2Response op q.1 q.2 := by
      have := congrArg Prod.snd he
      simpa using this.symm
    rw [this]
    simp [mkSwagger2Response, hprod]
  · intro q hq
    rw [parse_swagger2_parameters] at hq
    obtain ⟨p, hp, he⟩ := List.mem_filterMap.mp hq
    refine ⟨p, hp, ?_⟩
    by_cases hb : inVal p = "body"
    · rw [if_pos hb] at he
      cases he
    · rw [if_neg hb] at he
      rcases hl : locOf (inVal p) with _ | loc
      · rw [hl] at he
        cases he
      · rw [hl] at he
        exact ⟨loc, rfl, (Option.some.inj he).symm⟩
  · intro p hp loc hl
    rw [parse_swagger2_parameters]
    refine List.mem_filterMap.mpr ⟨p, hp, ?_⟩
    rw [if_neg (locOf_ne_body hl), hl]

theorem c8_swagger2_operation_amended_witness :
    parse_swagger2_body (Json.obj [("parameters", Json.arr
      [Json.obj [("in", Json.str "body"), ("schema",
        Json.obj [("$ref", Json.str "#/definitions/User")])]])]) =
      some (mkSwagger2Body
        (Json.obj [("parameters", Json.arr
          [Json.obj [("in", Json.str "body"), ("schema",
            Json.obj [("$ref", Json.str "#/definitions/User")])]])])
        (Json.obj [("in", Json.str "body"), ("schema",
          Json.obj [("$ref", Json.str "#/definitions/User")])])) ∧
    mkSwagger2Param (Json.obj [("in", Json.str "query"), ("name", Json.str "q")])
        ParameterLocation.query ∈
      parse_swagger2_parameters (Json.obj [("parameters", Json.arr
        [Json.obj [("in", Json.str "query"), ("name", Json.str "q")]])]) := by
  constructor
  · exact (c8_swagger2_operation_amended _).2.1 _ rfl
  · exact (c8_swagger2_operation_amended _).2.2.2.2.2 _ (by simp [paramsArr, Json.get, asArr])
      ParameterLocation.query rfl

/-! ### Cache manager (src/services/cache.rs) -/

/-- The fragment of ParsedSpec the cache logic observes (the remaining
fields — metadata, endpoints, schemas, tags — ride along unchanged and are
irrelevant to every cache decision, which only compares `spec_hash`). -/
structure ParsedSpecM where
  spec_hash : String
  source : String
  title : String
deriving DecidableEq

/-- The persisted cache record (`OasCache`), with `last_fetch` already taken
through `DateTime::parse_from_rfc3339`: `some t` is the parsed timestamp in
seconds, `none` an unparseable string.  The `version` string, `meta` summary
and state file do not participate in any validity decision. -/
structure OasCacheM where
  schema_version : Nat
  source : String
  last_fetch : Option Int
  ttl_seconds : Nat
  spec_hash : String
  etag : Option String
  last_modified : Option String
  mtime : Option String
  parsed_spec : Option ParsedSpecM
deriving DecidableEq

/-- Headers of a HEAD revalidation response. -/
structure HeadRespM where
  etag : Option String
  last_modified : Option String
deriving DecidableEq

/-- The environment a single `parse_with_cache` resolution observes: the
outcome of each I/O interaction, fixed up front so the cascade becomes a
pure function of it.  `loadResult = none` covers both an unreadable and an
undeserializable cache file; `headResult = none` is a network failure of the
HEAD request; `fileMeta` is `fs::metadata` then `modified()` for the local
source (`none` = metadata error, `some none` = modified() error); `saveOk`
is whether `save_cache` would succeed — `parse_with_cache` discards that
result (`let _ = ...`). -/
structure CacheEnv where
  loadResult : Option OasCacheM
  now : Int
  clientBuildOk : Bool
  headResult : Option HeadRespM
  fileMeta : Option (Option String)
  fetchResult : Except OasErrorM ParsedSpecM
  saveOk : Bool

/-- CacheManager::is_cache_expired: unparseable `last_fetch` counts as
expired; otherwise strictly more than `ttl_seconds` seconds must have
elapsed. -/
def is_cache_expired (now : Int) (cache : OasCacheM) : Bool :=
  match cache.last_fetch with
  | none => true
  | some t => now - t > (cache.ttl_seconds : Int)

/-- CacheManager::check_remote_cache: TTL first; a client-build failure
invalidates; a network error on the HEAD request falls back to "valid"
(TTL already passed); an ETag pair decides when both sides have one, else a
Last-Modified pair, else valid on TTL alone. -/
def check_remote_cache (env : CacheEnv) (cache : OasCacheM) : Bool :=
  if is_cache_expired env.now cache then false
  else if !env.clientBuildOk then false
  else
    match env.headResult with
    | none => true
    | some r =>
      match r.etag, cache.etag with
      | some e, some ce => e == ce
      | _, _ =>
        match r.last_modified, cache.last_modified with
        | some lm, some clm => lm == clm
        | _, _ => true

/-- CacheManager::check_local_cache: TTL first; a metadata or modified()
failure invalidates; otherwise the current mtime must equal the stored
validator, and a record without a stored mtime is invalid. -/
def check_local_cache (env : CacheEnv) (cache : OasCacheM) : Bool :=
  if is_cache_expired env.now cache then false
  else
    match env.fileMeta with
    | none => false
    | some none => false
    | some (some mt) =>
      match cache.mtime with
      | some cm => mt == cm
      | none => false

/-- The mtime CacheManager::create_cache stores: only non-http sources are
probed, and any metadata/modified failure degrades to no validator. -/
def create_cache_mtime (source : String) (fileMeta : Option (Option String)) :
    Option String :=
  if strStarts source "http" then none
  else
    match fileMeta with
    | some (some m) => some m
    | _ => none

/-- CacheManager::create_cache (the validity-relevant fields; `version`,
`meta` and the embedded spec clone are carried verbatim). -/
def create_cache (expectedVersion : Nat) (env : CacheEnv) (spec : ParsedSpecM)
    (source : String) (ttl_seconds : Option Nat) (headers : HeadRespM) : OasCacheM :=
  { schema_version := expectedVersion
    source := source
    last_fetch := some env.now
    ttl_seconds := ttl_seconds.getD 86400
    spec_hash := spec.spec_hash
    etag := headers.etag
    last_modified := headers.last_modified
    mtime := create_cache_mtime source env.fileMeta
    parsed_spec := some spec }

/-- The fresh path of parse_with_cache: fetch_and_parse then a best-effort
save whose failure is discarded, returning the freshly parsed spec. -/
def freshOf (env : CacheEnv) : Except OasErrorM ParsedSpecM := env.fetchResult

/-- CacheManager::parse_with_cache: the validity cascade.  Each stage falls
through to the fresh fetch on failure: unreadable/undeserializable record,
schema_version mismatch, source mismatch, failed remote/local validity
check, missing embedded spec, and embedded-spec hash mismatch. -/
def parse_with_cache (expectedVersion : Nat) (env : CacheEnv) (source : String) :
    Except OasErrorM ParsedSpecM :=
  match env.loadResult with
  | some cache =>
    if cache.schema_version ≠ expectedVersion then freshOf env
    else if cache.source = source then
      if (if strStarts source "http" then check_remote_cache env cache
          else check_local_cache env cache) then
        match cache.parsed_spec with
        | some ps => if ps.spec_hash = cache.spec_hash then .ok ps else freshOf env
        | none => freshOf env
      else freshOf env
    else freshOf env
  | none => freshOf env

theorem check_local_no_mtime {env : CacheEnv} {cache : OasCacheM}
    (h : cache.mtime = none) : check_local_cache env cache = false := by
  rw [check_local_cache]
  split
  · rfl
  · split
    · rfl
    · rfl
    · rw [h]

theorem check_local_no_meta {env : CacheEnv} {cache : OasCacheM}
    (h : env.fileMeta = none ∨ env.fileMeta = some none) :
    check_local_cache env cache = false := by
  rw [check_local_cache]
  split
  · rfl
  · rcases h with h | h <;> rw [h]

/-- C3.  `resolve` (parse_with_cache) fails only when the fresh
fetch-and-normalize path fails: every cache-layer failure (record missing,
unreadable or undeserializable, schema_version mismatch, source mismatch,
staleness, missing embedded spec, embedded-spec hash mismatch) falls through
to the fresh fetch instead of surfacing, a failure to persist the new record
does not influence the result, and a successful fetch always yields a
successful resolution. -/
theorem c3_resolve_error_only_from_fetch (ev : Nat) (env : CacheEnv) (source : String) :
    (∀ e, parse_with_cache ev env source = .error e → env.fetchResult = .error e) ∧
    (∀ spec, env.fetchResult = .ok spec → ∃ out, parse_with_cache ev env source = .ok out) ∧
    (∀ b b2 : Bool, parse_with_cache ev { env with saveOk := b } source =
      parse_with_cache ev { env with saveOk := b2 } source) ∧
    (parse_with_cache ev env source = freshOf env ∨
      ∃ cache ps, env.loadResult = some cache ∧ cache.parsed_spec = some ps ∧
        parse_with_cache ev env source = .ok ps) := by
  have hd : parse_with_cache ev env source = freshOf env ∨
      ∃ cache ps, env.loadResult = some cache ∧ cache.parsed_spec = some ps ∧
        parse_with_cache ev env source = .ok ps := by
    rcases hl : env.loadResult with _ | cache
    · left
      rw [parse_with_cache, hl]
    · by_cases hv : cache.schema_version ≠ ev
      · left
        rw [parse_with_cache, hl]
        dsimp only
        rw [if_pos hv]
      · by_cases hs : cache.source = source
        · by_cases hval : (if strStarts source "http" then check_remote_cache env cache
              else check_local_cache env cache) = true
          · rcases hps : cache.parsed_spec with _ | ps
            · left
              rw [parse_with_cache, hl]
              dsimp only
              rw [if_neg hv, if_pos hs, if_pos hval, hps]
            · by_cases hph : ps.spec_hash = cache.spec_hash
              · right
                refine ⟨cache, ps, rfl, hps, ?_⟩
                rw [parse_with_cache, hl]
                dsimp only
                rw [if_neg hv, if_pos hs, if_pos hval, hps]
                dsimp only
                rw [if_pos hph]
              · left
                rw [parse_with_cache, hl]
                dsimp only
                rw [if_neg hv, if_pos hs, if_pos hval, hps]
                dsimp only
                rw [if_neg hph]
          · left
            rw [parse_with_cache, hl]
            dsimp only
            rw [if_neg hv, if_pos hs, if_neg hval]
        · left
          rw [parse_with_cache, hl]
          dsimp only
          rw [if_neg hv, if_neg hs]
  refine ⟨?_, ?_, ?_, hd⟩
  · intro e he
    rcases hd with h | ⟨c, ps, _, _, h⟩
    · rw [h] at he
      exact he
    · rw [h] at he
      cases he
  · intro spec hs
    rcases hd with h | ⟨c, ps, _, _, h⟩
    · exact ⟨spec, by rw [h, freshOf, hs]⟩
    · exact ⟨ps, h⟩
  · intro b b2
    rfl

theorem c3_resolve_error_only_from_fetch_witness :
    ∃ out, parse_with_cache 1
      { loadResult := none, now := 0, clientBuildOk := true, headResult := none,
        fileMeta := none,
        fetchResult := .ok { spec_hash := "h", source := "s", title := "t" },
        saveOk := false } "s" = .ok out := by
  exact (c3_resolve_error_only_from_fetch 1 _ "s").2.1
    { spec_hash := "h", source := "s", title := "t" } rfl

/-- C4.  A schema_version different from the expected version forces the
fresh path even on an unexpired record, and a mismatch between the embedded
spec's own hash and the record's top-level hash forces the fresh path
(ignoring the embedded spec) even when every earlier stage passed. -/
theorem c4_version_and_hash_gate (ev : Nat) (env : CacheEnv) (source : String)
    (cache : OasCacheM) (hl : env.loadResult = some cache) :
    (cache.schema_version ≠ ev → is_cache_expired env.now cache = false →
      parse_with_cache ev env source = freshOf env) ∧
    (∀ ps, cache.schema_version = ev → cache.source = source →
      cache.parsed_spec = some ps → ps.spec_hash ≠ cache.spec_hash →
      parse_with_cache ev env source = freshOf env) := by
  constructor
  · intro hv _
    rw [parse_with_cache, hl]
    dsimp only
    rw [if_pos hv]
  · intro ps hv hs hps hph
    rw [parse_with_cache, hl]
    dsimp only
    rw [if_neg (by simp [hv]), if_pos hs]
    by_cases hval : (if strStarts source "http" then check_remote_cache env cache
        else check_local_cache env cache) = true
    · rw [if_pos hval, hps]
      dsimp only
      rw [if_neg hph]
    · rw [if_neg hval]

/-- A version-mismatched but fresh cache record. -/
def c4cache : OasCacheM :=
  { schema_version := 99, source := "s", last_fetch := some 0, ttl_seconds := 100,
    spec_hash := "h", etag := none, last_modified := none, mtime := some "m",
    parsed_spec := some { spec_hash := "h", source := "s", title := "t" } }

/-- Environment holding `c4cache` at time 1 (TTL not elapsed). -/
def c4env : CacheEnv :=
  { loadResult := some c4cache, now := 1, clientBuildOk := true, headResult := none,
    fileMeta := some (some "m"), fetchResult := .error (.ConnectionFailed "down"),
    saveOk := true }

/-- A record whose embedded spec hash disagrees with its top-level hash. -/
def c4cacheB : OasCacheM :=
  { schema_version := 1, source := "s", last_fetch := some 0, ttl_seconds := 100,
    spec_hash := "h", etag := none, last_modified := none, mtime := some "m",
    parsed_spec := some { spec_hash := "corrupted", source := "s", title := "t" } }

/-- Environment holding `c4cacheB` at time 1. -/
def c4envB : CacheEnv :=
  { loadResult := some c4cacheB, now := 1, clientBuildOk := true, headResult := none,
    fileMeta := some (some "m"), fetchResult := .error (.ConnectionFailed "down"),
    saveOk := true }

theorem c4_version_and_hash_gate_witness :
    parse_with_cache 1 c4env "s" = freshOf c4env ∧
    parse_with_cache 1 c4envB "s" = freshOf c4envB := by
  constructor
  · exact (c4_version_and_hash_gate 1 c4env "s" c4cache rfl).1 (by decide) (by decide)
  · exact (c4_version_and_hash_gate 1 c4envB "s" c4cacheB rfl).2
      { spec_hash := "corrupted", source := "s", title := "t" } rfl rfl rfl (by decide)

/-- C5.  A record whose `last_fetch` lies more than `ttl_seconds` in the
past is never treated as valid, on the remote and on the local path alike,
whatever the validators and environment; and a remote check that returned
valid despite a failed revalidation request can only have done so with an
unexpired TTL. -/
theorem c5_ttl_expiry (env : CacheEnv) (cache : OasCacheM) :
    (∀ t : Int, cache.last_fetch = some t → env.now - t > (cache.ttl_seconds : Int) →
      check_remote_cache env cache = false ∧ check_local_cache env cache = false) ∧
    (env.headResult = none → check_remote_cache env cache = true →
      is_cache_expired env.now cache = false) := by
  constructor
  · intro t ht hgt
    have hexp : is_cache_expired env.now cache = true := by
      rw [is_cache_expired, ht]
      exact decide_eq_true hgt
    constructor
    · rw [check_remote_cache, if_pos hexp]
    · rw [check_local_cache, if_pos hexp]
  · intro hh hv
    by_contra hne
    have hexp : is_cache_expired env.now cache = true := by
      cases hb : is_cache_expired env.now cache
      · exact absurd hb hne
      · rfl
    rw [check_remote_cache, if_pos hexp] at hv
    cases hv

/-- An expired record: fetched at time 0 with a 10-second TTL. -/
def c5cache : OasCacheM :=
  { schema_version := 1, source := "s", last_fetch := some 0, ttl_seconds := 10,
    spec_hash := "h", etag := some "e", last_modified := some "l", mtime := some "m",
    parsed_spec := none }

/-- Environment at time 100 (far past the TTL). -/
def c5env : CacheEnv :=
  { loadResult := some c5cache, now := 100, clientBuildOk := true, headResult := none,
    fileMeta := some (some "m"), fetchResult := .error (.ConnectionFailed "down"),
    saveOk := true }

/-- Environment at time 5 (inside the TTL) with a failing HEAD request. -/
def c5env2 : CacheEnv :=
  { loadResult := some c5cache, now := 5, clientBuildOk := true, headResult := none,
    fileMeta := some (some "m"), fetchResult := .error (.ConnectionFailed "down"),
    saveOk := true }

theorem c5_ttl_expiry_witness :
    (check_remote_cache c5env c5cache = false ∧
      check_local_cache c5env c5cache = false) ∧
    is_cache_expired c5env2.now c5cache = false := by
  constructor
  · exact (c5_ttl_expiry c5env c5cache).1 0 rfl (by decide)
  · exact (c5_ttl_expiry c5env2 c5cache).2 rfl (by decide)

/-- C10.  Local validity is strict: a record with no stored mtime validator,
or an unreadable file metadata/modification time, is invalid even inside the
TTL — unlike the remote path, which does fall back to TTL-only validity when
no validator is available; and a record created for a local file whose
metadata read failed is persisted with a null mtime, so every subsequent
resolution through it takes the fresh-fetch path. -/
theorem c10_local_validator (ev : Nat) (env : CacheEnv) (cache : OasCacheM) :
    (cache.mtime = none → check_local_cache env cache = false) ∧
    (env.fileMeta = none ∨ env.fileMeta = some none →
      check_local_cache env cache = false) ∧
    (∀ r, env.headResult = some r → r.etag = none → r.last_modified = none →
      is_cache_expired env.now cache = false → env.clientBuildOk = true →
      check_remote_cache env cache = true) ∧
    (∀ spec source ttl headers, strStarts source "http" = false →
      (env.fileMeta = none ∨ env.fileMeta = some none) →
      (create_cache ev env spec source ttl headers).mtime = none) ∧
    (∀ spec source ttl headers (env2 : CacheEnv), strStarts source "http" = false →
      (env.fileMeta = none ∨ env.fileMeta = some none) →
      env2.loadResult = some (create_cache ev env spec source ttl headers) →
      parse_with_cache ev env2 source = freshOf env2) := by
  have hmtime : ∀ spec source ttl headers, strStarts source "http" = false →
      (env.fileMeta = none ∨ env.fileMeta = some none) →
      (create_cache ev env spec source ttl headers).mtime = none := by
    intro spec source ttl headers hhttp hmeta
    show create_cache_mtime source env.fileMeta = none
    rw [create_cache_mtime, if_neg (by simp [hhttp])]
    intro m heq
    rcases hmeta with h | h <;> rw [h] at heq <;> cases heq
  refine ⟨check_local_no_mtime, check_local_no_meta, ?_, hmtime, ?_⟩
  · intro r hr he hlm hexp hb
    obtain ⟨re, rl⟩ := r
    simp only at he hlm
    subst he
    subst hlm
    rw [check_remote_cache, if_neg (by simp [hexp]), if_neg (by simp [hb]), hr]
  · intro spec source ttl headers env2 hhttp hmeta hl2
    have hmt := hmtime spec source ttl headers hhttp hmeta
    have hfalse : check_local_cache env2 (create_cache ev env spec source ttl headers) = false :=
      check_local_no_mtime hmt
    rw [parse_with_cache, hl2]
    dsimp only
    rw [if_neg (by simp [create_cache]), if_pos (by simp [create_cache]),
      if_neg (by simp [hhttp, hfalse])]

/-- A local-source environment whose file metadata read fails. -/
def c10env : CacheEnv :=
  { loadResult := none, now := 0, clientBuildOk := true, headResult := none,
    fileMeta := none, fetchResult := .ok { spec_hash := "h", source := "f.json", title := "t" },
    saveOk := true }

/-- The environment of the following resolution, holding the record the
first resolution persisted. -/
def c10env2 : CacheEnv :=
  { loadResult := some (create_cache 1 c10env
      { spec_hash := "h", source := "f.json", title := "t" } "f.json" none
      { etag := none, last_modified := none }),
    now := 1, clientBuildOk := true, headResult := none, fileMeta := none,
    fetchResult := .ok { spec_hash := "h", source := "f.json", title := "t" },
    saveOk := true }

theorem c10_local_validator_witness :
    (create_cache 1 c10env { spec_hash := "h", source := "f.json", title := "t" }
      "f.json" none { etag := none, last_modified := none }).mtime = none ∧
    parse_with_cache 1 c10env2 "f.json" = freshOf c10env2 := by
  constructor
  · exact (c10_local_validator 1 c10env c5cache).2.2.2.1 _ "f.json" none
      { etag := none, last_modified := none } (by decide) (Or.inl rfl)
  · exact (c10_local_validator 1 c10env c5cache).2.2.2.2 _ "f.json" none
      { etag := none, last_modified := none } c10env2 (by decide) (Or.inl rfl) rfl

/-! ### Local file reads and path traversal -/

/-- The error kinds a file-system call can report. -/
inductive IoKind where
  | notFound | permissionDenied | other
deriving DecidableEq

/-- Abstract file system observed by one read: canonicalization and file
reads with their error kinds. -/
structure FsEnv where
  canonicalize : String → Except IoKind String
  readFile : String → Except IoKind String

/-- OpenApiParser::read_local: reject a path containing `..` before any
file-system access, canonicalize (not-found mapped to the file-not-found
kind, other canonicalization failures to the traversal kind), reject again
when the canonical form still contains `..`, then read, surfacing not-found
and permission-denied as distinct error kinds from other read failures.
(Error-message payloads are abbreviated to the path / a fixed text.) -/
def read_local (fs : FsEnv) (path : String) : Except OasErrorM String :=
  if hasDotDot path then .error (.PathTraversal path)
  else
    match fs.canonicalize path with
    | .error .notFound => .error (.FileNotFound path)
    | .error _ => .error (.PathTraversal path)
    | .ok canonical =>
      if hasDotDot canonical then .error (.PathTraversal canonical)
      else
        match fs.readFile canonical with
        | .error .notFound => .error (.FileNotFound path)
        | .error .permissionDenied => .error (.PermissionDenied path)
        | .error .other => .error (.ReadError "read failed")
        | .ok content => .ok content

/-- The local branch of CacheManager::fetch_and_parse: the cold cache path
calls `std::fs::read_to_string(source)` directly — no parent-directory
check, no canonicalization — and maps every failure to the generic
ReadError kind.  (The subsequent parse_content call is irrelevant to the
read behaviour the claim describes.) -/
def cache_fetch_local_read (fs : FsEnv) (source : String) : Except OasErrorM String :=
  match fs.readFile source with
  | .error _ => .error (.ReadError "read failed")
  | .ok content => .ok content

/-- A file system that resolves and serves every path. -/
def fsServe : FsEnv :=
  { canonicalize := fun p => .ok p, readFile := fun _ => .ok "contents" }

/-- A file system on which every read reports not-found. -/
def fsMissing : FsEnv :=
  { canonicalize := fun p => .ok p, readFile := fun _ => .error .notFound }

/-- A file system on which every read reports permission-denied. -/
def fsDenied : FsEnv :=
  { canonicalize := fun p => .ok p, readFile := fun _ => .error .permissionDenied }

/-- C6.  The direct parser path rejects a parent-directory path with the
path-traversal error before any file-system access and keeps not-found and
permission-denied as distinct kinds; the cache manager's cold fetch path,
however, reads the traversal path straight from the file system — returning
its contents when it exists and collapsing a not-found failure into the
generic read error — contradicting the claim for "every local file read
performed by the system". -/
theorem c6_path_traversal_code_bug :
    hasDotDot "../secret.json" = true ∧
    read_local fsServe "../secret.json" = .error (.PathTraversal "../secret.json") ∧
    cache_fetch_local_read fsServe "../secret.json" = .ok "contents" ∧
    cache_fetch_local_read fsMissing "../secret.json" =
      .error (.ReadError "read failed") ∧
    read_local fsMissing "ok.json" = .error (.FileNotFound "ok.json") ∧
    read_local fsDenied "ok.json" = .error (.PermissionDenied "ok.json") := by
  exact ⟨rfl, rfl, rfl, rfl, rfl, rfl⟩

/-! ### Dependency graph (spec section 4.3; services/graph.rs and the graph
types are not among the provided sources, so this subsystem is modelled
from the spec) -/

/-- Modelled from the spec: the schema fragment the graph reads — a name
and the schema's `refs` list (missing source: services/graph.rs,
types/graph.rs). -/
structure SchemaNodeM where
  name : String
  refs : List String

/-- Modelled from the spec: the endpoint fragment the graph reads — the
`method+path` key and the endpoint's `schema_refs` list. -/
structure EndpointNodeM where
  key : String
  schema_refs : List String

/-- Modelled from the spec: the normalized-spec fragment `build` consumes. -/
structure SpecGraphInput where
  schemas : List SchemaNodeM
  endpoints : List EndpointNodeM

/-- Modelled from the spec: nodes are the union of schema names and
endpoint keys; edges are directed schema → referenced schema and
endpoint → referenced schema. -/
structure GraphM where
  nodes : List String
  edges : List (String × String)

/-- Modelled from the spec: `build(spec) -> Graph`. -/
def buildGraph (s : SpecGraphInput) : GraphM :=
  { nodes := s.schemas.map SchemaNodeM.name ++ s.endpoints.map EndpointNodeM.key
    edges := (s.schemas.flatMap fun b => b.refs.map fun a => (b.name, a)) ++
      (s.endpoints.flatMap fun e => e.schema_refs.map fun a => (e.key, a)) }

/-- Modelled from the spec: one reverse-edge expansion — keep the visited
set and add every node with an edge into it. -/
def revStep (g : GraphM) (s : List String) : List String :=
  s ++ g.edges.filterMap fun p => if p.2 ∈ s then some p.1 else none

/-- Modelled from the spec: iterated expansion. -/
def revIter (g : GraphM) : Nat → List String → List String
  | 0, s => s
  | n + 1, s => revStep g (revIter g n s)

/-- Modelled from the spec: `downstream(anchor)` — the reverse-edge
transitive closure of the anchor, computed as a bounded fixpoint iteration
(the spec's visited-set traversal saturates within |edges| + 1 expansions;
the bounded form is total by construction, cycles included). -/
def downstream (g : GraphM) (anchor : String) : List String :=
  revIter g (g.edges.length + 1) [anchor]

theorem mem_revStep_of_mem {g : GraphM} {s : List String} {x : String} (h : x ∈ s) :
    x ∈ revStep g s := List.mem_append_left _ h

theorem mem_revStep_of_edge {g : GraphM} {s : List String} {b a : String}
    (he : (b, a) ∈ g.edges) (ha : a ∈ s) : b ∈ revStep g s := by
  refine List.mem_append_right _ (List.mem_filterMap.mpr ⟨(b, a), he, ?_⟩)
  rw [if_pos ha]

theorem revIter_mono {g : GraphM} {s : List String} {x : String} :
    ∀ {m n : Nat}, m ≤ n → x ∈ revIter g m s → x ∈ revIter g n s := by
  intro m n
  induction n with
  | zero =>
    intro hmn hx
    rw [Nat.le_zero.mp hmn] at hx
    exact hx
  | succ n ih =>
    intro hmn hx
    rcases Nat.lt_or_ge m (n + 1) with h | h
    · show x ∈ revStep g (revIter g n s)
      exact mem_revStep_of_mem (ih (Nat.lt_succ_iff.mp h) hx)
    · rw [← Nat.le_antisymm hmn h]
      exact hx

/-- C9 (modelled from the spec).  In the graph built from a normalized
spec, if schema A appears in schema B's refs and B appears in endpoint E's
schema_refs, then the downstream query anchored at A contains both B and E;
`downstream` is a total function (bounded iteration), so the query
terminates even when schemas reference each other cyclically. -/
theorem c9_downstream_transitivity (s : SpecGraphInput)
    (B : SchemaNodeM) (E : EndpointNodeM) (A : String)
    (hB : B ∈ s.schemas) (hA : A ∈ B.refs)
    (hE : E ∈ s.endpoints) (hBE : B.name ∈ E.schema_refs) :
    B.name ∈ downstream (buildGraph s) A ∧ E.key ∈ downstream (buildGraph s) A := by
  have hedge1 : (B.name, A) ∈ (buildGraph s).edges :=
    List.mem_append_left _
      (List.mem_flatMap.mpr ⟨B, hB, List.mem_map.mpr ⟨A, hA, rfl⟩⟩)
  have hedge2 : (E.key, B.name) ∈ (buildGraph s).edges :=
    List.mem_append_right _
      (List.mem_flatMap.mpr ⟨E, hE, List.mem_map.mpr ⟨B.name, hBE, rfl⟩⟩)
  have h1 : B.name ∈ revIter (buildGraph s) 1 [A] := by
    show B.name ∈ revStep (buildGraph s) (revIter (buildGraph s) 0 [A])
    exact mem_revStep_of_edge hedge1 (by simp [revIter])
  have h2 : E.key ∈ revIter (buildGraph s) 2 [A] := by
    show E.key ∈ revStep (buildGraph s) (revIter (buildGraph s) 1 [A])
    exact mem_revStep_of_edge hedge2 h1
  have hlen : 1 ≤ (buildGraph s).edges.length :=
    List.length_pos.mpr (List.ne_nil_of_mem hedge1)
  rw [downstream]
  exact ⟨revIter_mono (by omega) h1, revIter_mono (by omega) h2⟩

/-- A cyclic spec: schemas A and B reference each other, endpoint GET /u
references B. -/
def cyclicSpec : SpecGraphInput :=
  { schemas := [{ name := "B", refs := ["A"] }, { name := "A", refs := ["B"] }]
    endpoints := [{ key := "GET /u", schema_refs := ["B"] }] }

theorem c9_downstream_transitivity_witness :
    "B" ∈ downstream (buildGraph cyclicSpec) "A" ∧
    "GET /u" ∈ downstream (buildGraph cyclicSpec) "A" := by
  exact c9_downstream_transitivity cyclicSpec
    { name := "B", refs := ["A"] } { key := "GET /u", schema_refs := ["B"] } "A"
    (List.mem_cons_self _ _) (List.mem_cons_self _ _)
    (List.mem_cons_self _ _) (List.mem_cons_self _ _)
